import Mathlib

/-! Monkey front end: token table, lexer and syntax tree.

A shallow embedding of `token/token.go`, `lexer/lexer.go` and `ast/ast.go`.

* A Go `byte` is a natural number (a real byte is below 256); a Go `string` is the
  list of its bytes.
* A Go `int` cursor is a natural number: the cursor starts at 0 and grows by one per
  `readChar`, so it stays far below 2^63 on any run that can be carried out.
* `token.Type` is a Go string type with 27 named constants; it is embedded as the
  enumeration of those constants, `TokenType.str` giving the Go string of each.
* The two `for` loops of the lexer take a fuel argument; a loop that has not left
  within its fuel, and a slice expression whose bounds are out of range, give `none`.
-/

namespace Monkey

/-! ## token/token.go -/

/-- The constants of `token.Type`. -/
inductive TokenType where
  | ILLEGAL | EOF
  | IDENT | INT
  | ASSIGN | PLUS | MINUS | BANG | ASTERISK | SLASH | LT | GT | EQ | NOT_EQ
  | COMMA | SEMICOLON
  | LPAREN | RPAREN | LBRACE | RBRACE
  | FUNCTION | LET | TRUE | FALSE | IF | ELSE | RETURN
  deriving DecidableEq, Repr

open TokenType

/-- The Go string value of each `token.Type` constant, as bytes. -/
def TokenType.str : TokenType → List Nat
  | ILLEGAL => [73, 76, 76, 69, 71, 65, 76]   -- "ILLEGAL"
  | EOF => [69, 79, 70]                       -- "EOF"
  | IDENT => [73, 68, 69, 78, 84]             -- "IDENT"
  | INT => [73, 78, 84]                       -- "INT"
  | ASSIGN => [61]                            -- "="
  | PLUS => [43]                              -- "+"
  | MINUS => [45]                             -- "-"
  | BANG => [33]                              -- "!"
  | ASTERISK => [42]                          -- "*"
  | SLASH => [47]                             -- "/"
  | LT => [60]                                -- "<"
  | GT => [62]                                -- ">"
  | EQ => [61, 61]                            -- "=="
  | NOT_EQ => [33, 61]                        -- "!="
  | COMMA => [44]                             -- ","
  | SEMICOLON => [59]                         -- ";"
  | LPAREN => [40]                            -- "("
  | RPAREN => [41]                            -- ")"
  | LBRACE => [123]                           -- "{"
  | RBRACE => [125]                           -- "}"
  | FUNCTION => [70, 85, 78, 67, 84, 73, 79, 78]  -- "FUNCTION"
  | LET => [76, 69, 84]                       -- "LET"
  | TRUE => [84, 82, 85, 69]                  -- "TRUE"
  | FALSE => [70, 65, 76, 83, 69]             -- "FALSE"
  | IF => [73, 70]                            -- "IF"
  | ELSE => [69, 76, 83, 69]                  -- "ELSE"
  | RETURN => [82, 69, 84, 85, 82, 78]        -- "RETURN"

/-- The struct `token.Token`; the field `Kind` is the Go field `Type`. -/
structure Token where
  Kind : TokenType
  Literal : List Nat
  deriving DecidableEq, Repr

/-- The map `token.SingleByteLiteralToType`, as its list of entries. -/
def SingleByteLiteralToType : List (Nat × TokenType) :=
  [ (0, EOF),
    (43, PLUS),        -- '+'
    (44, COMMA),       -- ','
    (59, SEMICOLON),   -- ';'
    (40, LPAREN),      -- '('
    (41, RPAREN),      -- ')'
    (123, LBRACE),     -- '{'
    (125, RBRACE),     -- '}'
    (45, MINUS),       -- '-'
    (42, ASTERISK),    -- '*'
    (47, SLASH),       -- '/'
    (60, LT),          -- '<'
    (62, GT) ]         -- '>'

/-- The map `token.Keywords`, as its list of entries. -/
def Keywords : List (List Nat × TokenType) :=
  [ ([102, 110], FUNCTION),                    -- "fn"
    ([108, 101, 116], LET),                    -- "let"
    ([116, 114, 117, 101], TRUE),              -- "true"
    ([102, 97, 108, 115, 101], FALSE),         -- "false"
    ([105, 102], IF),                          -- "if"
    ([101, 108, 115, 101], ELSE),              -- "else"
    ([114, 101, 116, 117, 114, 110], RETURN) ] -- "return"

/-- The method `Token.TokenLiteral`. -/
def Token.TokenLiteral (t : Token) : List Nat := t.Literal

/-- The function `token.LookupIdent`. -/
def LookupIdent (ident : List Nat) : TokenType :=
  match Keywords.lookup ident with
  | some t => t
  | none => IDENT

/-- The method `Type.Token`. -/
def TokenType.Token (t : TokenType) (literal : List Nat) : Token :=
  { Kind := t, Literal := literal }

/-- The Go conversion `string(b)` of a byte `b`: the UTF-8 encoding of the code point `b`,
one byte below 0x80 and two bytes from 0x80 to 0xFF. -/
def stringOfByte (b : Nat) : List Nat :=
  if b < 128 then [b] else [192 + b / 64, 128 + b % 64]

/-! ## lexer/lexer.go -/

/-- The struct `lexer.Lexer`. -/
structure Lexer where
  input : List Nat
  position : Nat
  readPosition : Nat
  ch : Nat
  deriving DecidableEq, Repr

/-- The function `isLetter`. -/
def isLetter (ch : Nat) : Bool :=
  97 ≤ ch && ch ≤ 122 || 65 ≤ ch && ch ≤ 90 || ch == 95

/-- The function `isDigit`. -/
def isDigit (ch : Nat) : Bool :=
  48 ≤ ch && ch ≤ 57

/-- The method `Lexer.readChar`. -/
def Lexer.readChar (l : Lexer) : Lexer :=
  let ch := if h : l.readPosition ≥ l.input.length then 0
            else l.input.get ⟨l.readPosition, Nat.lt_of_not_le h⟩
  { l with ch := ch, position := l.readPosition, readPosition := l.readPosition + 1 }

/-- The method `Lexer.peekChar`. -/
def Lexer.peekChar (l : Lexer) : Nat :=
  if h : l.readPosition ≥ l.input.length then 0
  else l.input.get ⟨l.readPosition, Nat.lt_of_not_le h⟩

/-- The function `lexer.New`. -/
def New (input : List Nat) : Lexer :=
  Lexer.readChar { input := input, position := 0, readPosition := 0, ch := 0 }

/-- The loop `for predicate(l.ch) { l.readChar() }` of `readWhile`, which is also the loop
of `skipWhitespace` with the whitespace test as its condition; `fuel` bounds the number of
times the condition is tested, and `none` means the loop has not left within it. -/
def Lexer.readWhileLoop (predicate : Nat → Bool) : Nat → Lexer → Option Lexer
  | 0, _ => none
  | fuel + 1, l =>
    if predicate l.ch then Lexer.readWhileLoop predicate fuel l.readChar else some l

/-- The slice expression `s[lo:hi]` of a Go string, which panics (`none`) unless
`lo ≤ hi ≤ len(s)`. -/
def goSlice (s : List Nat) (lo hi : Nat) : Option (List Nat) :=
  if lo ≤ hi ∧ hi ≤ s.length then some ((s.drop lo).take (hi - lo)) else none

/-- The number of loop tests that is enough for either loop of the lexer on `l`. -/
def Lexer.fuel (l : Lexer) : Nat := l.input.length + 2

/-- The method `Lexer.readWhile`: the string read and the lexer afterwards. -/
def Lexer.readWhile (l : Lexer) (predicate : Nat → Bool) : Option (List Nat × Lexer) :=
  let position := l.position
  match Lexer.readWhileLoop predicate l.fuel l with
  | none => none
  | some l1 =>
    match goSlice l1.input position l1.position with
    | none => none
    | some s => some (s, l1)

/-- The method `Lexer.readNumber`. -/
def Lexer.readNumber (l : Lexer) : Option (List Nat × Lexer) :=
  l.readWhile isDigit

/-- The method `Lexer.readIdentifier`. -/
def Lexer.readIdentifier (l : Lexer) : Option (List Nat × Lexer) :=
  l.readWhile isLetter

/-- The loop condition of `skipWhitespace`: space, tab, newline, carriage return. -/
def isWhitespace (ch : Nat) : Bool :=
  ch == 32 || ch == 9 || ch == 10 || ch == 13

/-- The method `Lexer.skipWhitespace`: `for l.ch == ' ' || ... { l.readChar() }`. -/
def Lexer.skipWhitespace (l : Lexer) : Option Lexer :=
  Lexer.readWhileLoop isWhitespace l.fuel l

/-- The method `Lexer.NextToken`: the token returned and the lexer afterwards. A deferred
`readChar` runs after the returned token has been built. -/
def Lexer.NextToken (l0 : Lexer) : Option (Token × Lexer) :=
  match l0.skipWhitespace with
  | none => none
  | some l =>
    match SingleByteLiteralToType.lookup l.ch with
    | some t => some (t.Token (stringOfByte l.ch), l.readChar)
    | none =>
      if l.ch = 61 then          -- '='
        if l.peekChar = 61 then
          let ch := l.ch
          let l1 := l.readChar
          some (EQ.Token (stringOfByte ch ++ stringOfByte l1.ch), l1.readChar)
        else some (ASSIGN.Token (stringOfByte l.ch), l.readChar)
      else if l.ch = 33 then     -- '!'
        if l.peekChar = 61 then
          let ch := l.ch
          let l1 := l.readChar
          some (NOT_EQ.Token (stringOfByte ch ++ stringOfByte l1.ch), l1.readChar)
        else some (BANG.Token (stringOfByte l.ch), l.readChar)
      else if isLetter l.ch then
        match l.readIdentifier with
        | none => none
        | some (literal, l1) => some ((LookupIdent literal).Token literal, l1)
      else if isDigit l.ch then
        match l.readNumber with
        | none => none
        | some (literal, l1) => some (INT.Token literal, l1)
      else some (ILLEGAL.Token (stringOfByte l.ch), l.readChar)

/-- The tokens returned by `k` successive calls of `NextToken`, and the lexer afterwards. -/
def Lexer.nextTokens : Nat → Lexer → Option (List Token × Lexer)
  | 0, l => some ([], l)
  | k + 1, l =>
    match l.NextToken with
    | none => none
    | some (t, l1) =>
      match Lexer.nextTokens k l1 with
      | none => none
      | some (ts, l2) => some (t :: ts, l2)

/-- The token returned by call number `k + 1` of `NextToken`, counting from the state `l`. -/
def Lexer.nthToken : Nat → Lexer → Option Token
  | 0, l => l.NextToken.map Prod.fst
  | k + 1, l =>
    match l.NextToken with
    | none => none
    | some (_, l1) => Lexer.nthToken k l1

/-- The tokens returned by successive calls of `NextToken` up to, and not including, the
first token of kind `EOF`; `fuel` bounds the number of calls. -/
def Lexer.tokensBeforeEOFLoop : Nat → Lexer → Option (List Token)
  | 0, _ => none
  | fuel + 1, l =>
    match l.NextToken with
    | none => none
    | some (t, l1) =>
      if t.Kind = EOF then some []
      else
        match Lexer.tokensBeforeEOFLoop fuel l1 with
        | none => none
        | some ts => some (t :: ts)

/-- The tokens a lexer returns before its first `EOF` token; one call more than the input
has bytes is enough to reach it. -/
def Lexer.tokensBeforeEOF (l : Lexer) : Option (List Token) :=
  Lexer.tokensBeforeEOFLoop (l.input.length + 1) l

/-! ## Reached states, and one call as a function of the unread input

The lexer only reaches states `Lexer.atPos input p`. The functions `scanHead`, `scanToken`
and their iterations restate `NextToken` on the unread input `input.drop p`; the theorem
`NextToken_atPos` proves that the restatement agrees with the code. -/

/-- The lexer over `input` whose cursor stands on index `p`. -/
def Lexer.atPos (input : List Nat) (p : Nat) : Lexer :=
  { input := input, position := p, readPosition := p + 1, ch := input.getD p 0 }

/-- The token that starts at the head of `r` and the number of bytes it takes, for unread
input `r` whose leading whitespace has been skipped. -/
def scanHead (r : List Nat) : Token × Nat :=
  let c := r.getD 0 0
  match SingleByteLiteralToType.lookup c with
  | some t => (t.Token (stringOfByte c), 1)
  | none =>
    if c = 61 then
      if r.getD 1 0 = 61 then (EQ.Token [61, 61], 2) else (ASSIGN.Token [61], 1)
    else if c = 33 then
      if r.getD 1 0 = 61 then (NOT_EQ.Token [33, 61], 2) else (BANG.Token [33], 1)
    else if isLetter c then
      ((LookupIdent (r.takeWhile isLetter)).Token (r.takeWhile isLetter),
        (r.takeWhile isLetter).length)
    else if isDigit c then
      (INT.Token (r.takeWhile isDigit), (r.takeWhile isDigit).length)
    else (ILLEGAL.Token (stringOfByte c), 1)

/-- The token one call returns on unread input `s` and the number of bytes the call
moves the cursor by. -/
def scanToken (s : List Nat) : Token × Nat :=
  let n := (s.takeWhile isWhitespace).length
  ((scanHead (s.drop n)).1, n + (scanHead (s.drop n)).2)

/-- The unread input left by one call on unread input `s`. -/
def scanRest (s : List Nat) : List Nat := s.drop (scanToken s).2

/-- The token returned by call number `k + 1` on unread input `s`. -/
def scanNth : Nat → List Nat → Token
  | 0, s => (scanToken s).1
  | k + 1, s => scanNth k (scanRest s)

/-- The cursor index after `k` calls that start with the cursor on index `p`. -/
def scanPos (input : List Nat) : Nat → Nat → Nat
  | 0, p => p
  | k + 1, p => scanPos input k (p + (scanToken (input.drop p)).2)

/-- The tokens returned by `k` successive calls on unread input `s`. -/
def scanList : Nat → List Nat → List Token
  | 0, _ => []
  | k + 1, s => (scanToken s).1 :: scanList k (scanRest s)

/-- The tokens returned on unread input `s` before the first `EOF` token, within `fuel`
calls. -/
def scanBeforeEOF : Nat → List Nat → Option (List Token)
  | 0, _ => none
  | fuel + 1, s =>
    if (scanToken s).1.Kind = EOF then some []
    else
      match scanBeforeEOF fuel (scanRest s) with
      | none => none
      | some ts => some ((scanToken s).1 :: ts)

/-! ## The index and slice expressions the lexer evaluates

The functions below follow the control flow of the lexer's methods and list, in order,
the index expressions `input[i]` and slice expressions `input[lo:hi]` that a call
evaluates, each with the length of the string at that moment. -/

/-- An index expression `s[i]` or a slice expression `s[lo:hi]` on a string of length
`len`. -/
inductive Access where
  | index (i len : Nat)
  | slice (lo hi len : Nat)
  deriving DecidableEq, Repr

/-- The bounds of an access: `i < len` for an index, `lo < hi ≤ len` for a slice. -/
def Access.inBounds : Access → Prop
  | .index i len => i < len
  | .slice lo hi len => lo < hi ∧ hi ≤ len

/-- The length of the string an access is made on. -/
def Access.len : Access → Nat
  | .index _ len => len
  | .slice _ _ len => len

/-- The accesses of `readChar`: `l.input[l.readPosition]` in the `else` branch. -/
def Lexer.readCharAccesses (l : Lexer) : List Access :=
  if l.readPosition ≥ l.input.length then [] else [.index l.readPosition l.input.length]

/-- The accesses of `peekChar`: `l.input[l.readPosition]` after the test. -/
def Lexer.peekCharAccesses (l : Lexer) : List Access :=
  if l.readPosition ≥ l.input.length then [] else [.index l.readPosition l.input.length]

/-- The accesses of the loop `for predicate(l.ch) { l.readChar() }`. -/
def Lexer.readWhileLoopAccesses (predicate : Nat → Bool) : Nat → Lexer → List Access
  | 0, _ => []
  | fuel + 1, l =>
    if predicate l.ch then
      l.readCharAccesses ++ Lexer.readWhileLoopAccesses predicate fuel l.readChar
    else []

/-- The accesses of `readWhile`: those of its loop, then `l.input[position:l.position]`. -/
def Lexer.readWhileAccesses (l : Lexer) (predicate : Nat → Bool) : List Access :=
  let position := l.position
  Lexer.readWhileLoopAccesses predicate l.fuel l ++
    match Lexer.readWhileLoop predicate l.fuel l with
    | none => []
    | some l1 => [.slice position l1.position l1.input.length]

/-- The accesses of `skipWhitespace`. -/
def Lexer.skipWhitespaceAccesses (l : Lexer) : List Access :=
  Lexer.readWhileLoopAccesses isWhitespace l.fuel l

/-- The accesses of one call of `NextToken`. -/
def Lexer.NextTokenAccesses (l0 : Lexer) : List Access :=
  l0.skipWhitespaceAccesses ++
    match l0.skipWhitespace with
    | none => []
    | some l =>
      match SingleByteLiteralToType.lookup l.ch with
      | some _ => l.readCharAccesses
      | none =>
        if l.ch = 61 then
          l.peekCharAccesses ++
            (if l.peekChar = 61 then l.readCharAccesses ++ l.readChar.readCharAccesses
             else l.readCharAccesses)
        else if l.ch = 33 then
          l.peekCharAccesses ++
            (if l.peekChar = 61 then l.readCharAccesses ++ l.readChar.readCharAccesses
             else l.readCharAccesses)
        else if isLetter l.ch then l.readWhileAccesses isLetter
        else if isDigit l.ch then l.readWhileAccesses isDigit
        else l.readCharAccesses

/-- The accesses of `k` successive calls of `NextToken`. -/
def Lexer.accessesOfCalls : Nat → Lexer → List Access
  | 0, _ => []
  | k + 1, l =>
    l.NextTokenAccesses ++
      match l.NextToken with
      | none => []
      | some (_, l1) => Lexer.accessesOfCalls k l1

/-- The accesses of `New input`: those of its call of `readChar`. -/
def NewAccesses (input : List Nat) : List Access :=
  Lexer.readCharAccesses { input := input, position := 0, readPosition := 0, ch := 0 }

/-! ## ast/ast.go

Every node struct embeds a `token.Token`, here the field or argument `tok`. A field that
`String()` tests against `nil` is an `Option`; the other pointer and interface fields are
dereferenced without a test, so a tree with `nil` there has no rendering and the embedding
has no such tree. A `bytes.Buffer` is the list of the bytes written to it so far. -/

/-- The struct `ast.Identifier`. -/
structure Identifier where
  tok : Token
  Value : List Nat
  deriving DecidableEq, Repr

/-- The struct `ast.IntegerLiteral`; `Value` is an `int64`. -/
structure IntegerLiteral where
  tok : Token
  Value : Int
  deriving DecidableEq, Repr

/-- The struct `ast.Boolean`. -/
structure Boolean where
  tok : Token
  Value : Bool
  deriving DecidableEq, Repr

mutual
/-- The implementations of the interface `ast.Expression`. -/
inductive Expression where
  | Identifier (i : Identifier)
  | IntegerLiteral (il : IntegerLiteral)
  | FunctionLiteral (tok : Token) (Parameters : List Identifier) (Body : BlockStatement)
  | Boolean (b : Boolean)
  | PrefixExpression (tok : Token) (Operator : List Nat) (Right : Expression)
  | InfixExpression (tok : Token) (Left : Expression) (Operator : List Nat)
      (Right : Expression)
  | IfExpression (tok : Token) (Condition : Expression) (Consequence : BlockStatement)
      (Alternative : Option BlockStatement)
  | CallExpression (tok : Token) (Function : Expression) (Arguments : List Expression)
/-- The implementations of the interface `ast.Statement`. -/
inductive Statement where
  | ExpressionStatement (tok : Token) (Expression : Option Expression)
  | LetStatement (tok : Token) (Name : Identifier) (Value : Option Expression)
  | BlockStatement (bs : BlockStatement)
  | ReturnStatement (tok : Token) (ReturnValue : Option Expression)
/-- The struct `ast.BlockStatement`. -/
inductive BlockStatement where
  | mk (tok : Token) (Statements : List Statement)
end

/-- The struct `ast.Program`. -/
structure Program where
  Statements : List Statement

/-- The function `strings.Join` of the Go library: the elements with `sep` between them. -/
def stringsJoin : List (List Nat) → List Nat → List Nat
  | [], _ => []
  | [a], _ => a
  | a :: b :: rest, sep => a ++ sep ++ stringsJoin (b :: rest) sep

/-- The method `Identifier.String`. -/
def Identifier.String (i : Identifier) : List Nat := i.Value

/-- The method `IntegerLiteral.String`; `il.Literal` is the literal of the embedded token. -/
def IntegerLiteral.String (il : IntegerLiteral) : List Nat := il.tok.Literal

/-- The method `Boolean.String`; `b.Literal` is the literal of the embedded token. -/
def Boolean.String (b : Boolean) : List Nat := b.tok.Literal

/-- The loop of `FunctionLiteral.String` that collects `p.String()` for each parameter. -/
def Identifier.Strings : List Identifier → List (List Nat)
  | [] => []
  | p :: rest => p.String :: Identifier.Strings rest

mutual
/-- The methods `String` of the expression nodes. -/
def Expression.String : Expression → List Nat
  | .Identifier i => i.String
  | .IntegerLiteral il => il.String
  | .FunctionLiteral tok params body =>
    tok.TokenLiteral ++ [40] ++ stringsJoin (Identifier.Strings params) [44, 32]
      ++ [41, 32] ++ body.String
  | .Boolean b => b.String
  | .PrefixExpression _ op right => [40] ++ op ++ right.String ++ [41]
  | .InfixExpression _ left op right =>
    [40] ++ left.String ++ ([32] ++ op ++ [32]) ++ right.String ++ [41]
  | .IfExpression _ cond cons alt =>
    [105, 102] ++ cond.String ++ [32] ++ cons.String ++
      (match alt with
       | some a => [101, 108, 115, 101, 32] ++ a.String
       | none => [])
  | .CallExpression _ f args =>
    f.String ++ [40] ++ stringsJoin (Expression.Strings args) [44, 32] ++ [41]
/-- The loop of `CallExpression.String` that collects `a.String()` for each argument. -/
def Expression.Strings : List Expression → List (List Nat)
  | [] => []
  | a :: rest => a.String :: Expression.Strings rest
/-- The methods `String` of the statement nodes. -/
def Statement.String : Statement → List Nat
  | .ExpressionStatement _ e =>
    (match e with
     | some e => e.String
     | none => [])
  | .LetStatement tok name value =>
    (tok.TokenLiteral ++ [32]) ++ name.String ++ [32, 61, 32] ++
      (match value with
       | some v => v.String
       | none => [])
      ++ [59]
  | .BlockStatement bs => bs.String
  | .ReturnStatement tok value =>
    (tok.TokenLiteral ++ [32]) ++
      (match value with
       | some v => v.String
       | none => [])
      ++ [59]
/-- The method `BlockStatement.String`. -/
def BlockStatement.String : BlockStatement → List Nat
  | .mk _ stmts => Statement.writeAll stmts
/-- The loop `for _, s := range stmts { out.WriteString(s.String()) }` of `Program.String`
and `BlockStatement.String`: the bytes written. -/
def Statement.writeAll : List Statement → List Nat
  | [] => []
  | s :: rest => s.String ++ Statement.writeAll rest
end

/-- The method `Program.String`. -/
def Program.String (p : Program) : List Nat := Statement.writeAll p.Statements

/-- The token embedded in an expression node. -/
def Expression.Token : Expression → Token
  | .Identifier i => i.tok
  | .IntegerLiteral il => il.tok
  | .FunctionLiteral tok _ _ => tok
  | .Boolean b => b.tok
  | .PrefixExpression tok _ _ => tok
  | .InfixExpression tok _ _ _ => tok
  | .IfExpression tok _ _ _ => tok
  | .CallExpression tok _ _ => tok

/-- The token embedded in a block statement. -/
def BlockStatement.Token : BlockStatement → Token
  | .mk tok _ => tok

/-- The token embedded in a statement node. -/
def Statement.Token : Statement → Token
  | .ExpressionStatement tok _ => tok
  | .LetStatement tok _ _ => tok
  | .BlockStatement bs => bs.Token
  | .ReturnStatement tok _ => tok

/-- The method `TokenLiteral` of an expression node, promoted from its embedded token. -/
def Expression.TokenLiteral (e : Expression) : List Nat := e.Token.TokenLiteral

/-- The method `TokenLiteral` of a statement node, promoted from its embedded token. -/
def Statement.TokenLiteral (s : Statement) : List Nat := s.Token.TokenLiteral

/-- The method `Program.TokenLiteral`. -/
def Program.TokenLiteral (p : Program) : List Nat :=
  if h : p.Statements.length > 0 then (p.Statements.get ⟨0, h⟩).TokenLiteral else []

/-- The bytes of an ASCII text, for writing expected renderings. -/
def bytes (s : String) : List Nat := s.toList.map Char.toNat

/-- The identifier node the tests build for a name: `&Identifier{Token:
token.IDENT.Token(name), Value: name}`. -/
def identNode (name : String) : Identifier :=
  { tok := IDENT.Token (bytes name), Value := bytes name }

/-- The integer literal node for a decimal text and its value. -/
def intNode (text : String) (value : Int) : Expression :=
  .IntegerLiteral { tok := INT.Token (bytes text), Value := value }

/-- The infix node for an operator whose token has kind `k`. -/
def infixNode (k : TokenType) (left : Expression) (op : String) (right : Expression) :
    Expression :=
  .InfixExpression (k.Token (bytes op)) left (bytes op) right

/-- The prefix node for an operator whose token has kind `k`. -/
def prefixNode (k : TokenType) (op : String) (right : Expression) : Expression :=
  .PrefixExpression (k.Token (bytes op)) (bytes op) right

/-- The call node; its token is the "(" that follows the callee. -/
def callNode (f : Expression) (args : List Expression) : Expression :=
  .CallExpression (LPAREN.Token (bytes "(")) f args

/-- The block `{ e }` holding the one expression statement `e`, an identifier. -/
def blockOfIdent (name : String) : BlockStatement :=
  .mk (LBRACE.Token (bytes "\x7b"))
    [.ExpressionStatement (IDENT.Token (bytes name)) (some (.Identifier (identNode name)))]

/-- A string without the bytes '(' and ')'. -/
def noParen (s : List Nat) : Bool := s.all (fun b => b != 40 && b != 41)

mutual
/-- The expression trees built from `PrefixExpression`, `InfixExpression` and
`CallExpression` nodes over `Identifier`, `IntegerLiteral` and `Boolean` leaves in which
no leaf text (the `String()` of the leaf) and no operator string holds '(' or ')'. -/
def Expression.parenFree : Expression → Bool
  | .Identifier i => noParen i.String
  | .IntegerLiteral il => noParen il.String
  | .FunctionLiteral _ _ _ => false
  | .Boolean b => noParen b.String
  | .PrefixExpression _ op right => noParen op && right.parenFree
  | .InfixExpression _ left op right => noParen op && left.parenFree && right.parenFree
  | .IfExpression _ _ _ _ => false
  | .CallExpression _ f args => f.parenFree && Expression.parenFreeAll args
/-- The condition `Expression.parenFree` on every argument of a call. -/
def Expression.parenFreeAll : List Expression → Bool
  | [] => true
  | a :: rest => a.parenFree && Expression.parenFreeAll rest
end

/-! ## The cursor states the lexer reaches -/

theorem getD_drop_zero (s : List Nat) (p i : Nat) :
    (s.drop p).getD i 0 = s.getD (p + i) 0 := by
  simp [List.getD, List.getElem?_drop]

theorem New_eq_atPos (input : List Nat) : New input = Lexer.atPos input 0 := by
  unfold New Lexer.readChar Lexer.atPos
  by_cases h : input.length ≤ 0
  · have : input = [] := by
      cases input with
      | nil => rfl
      | cons a t => simp at h
    subst this; rfl
  · simp only [ge_iff_le, h, dite_false]
    congr 1
    simp [List.getD, List.getElem?_eq_getElem (Nat.lt_of_not_le h)]

theorem readChar_atPos (input : List Nat) (p : Nat) :
    (Lexer.atPos input p).readChar = Lexer.atPos input (p + 1) := by
  unfold Lexer.readChar Lexer.atPos
  by_cases h : input.length ≤ p + 1
  · simp [h, List.getD, List.getElem?_eq_none h]
  · simp only [ge_iff_le, h, dite_false]
    congr 1
    simp [List.getD, List.getElem?_eq_getElem (Nat.lt_of_not_le h)]

theorem peekChar_atPos (input : List Nat) (p : Nat) :
    (Lexer.atPos input p).peekChar = input.getD (p + 1) 0 := by
  unfold Lexer.peekChar Lexer.atPos
  by_cases h : input.length ≤ p + 1
  · simp [h, List.getD, List.getElem?_eq_none h]
  · simp only [ge_iff_le, h, dite_false]
    simp [List.getD, List.getElem?_eq_getElem (Nat.lt_of_not_le h)]

theorem drop_cons_getD {s : List Nat} {p c : Nat} {r : List Nat} (h : s.drop p = c :: r) :
    s.getD p 0 = c ∧ s.drop (p + 1) = r := by
  constructor
  · have := getD_drop_zero s p 0
    rw [h] at this
    simpa using this.symm
  · have : s.drop (p + 1) = (s.drop p).drop 1 := by
      rw [List.drop_drop]
    rw [this, h, List.drop_one, List.tail_cons]

theorem drop_nil_getD {s : List Nat} {p : Nat} (h : s.drop p = []) (i : Nat) :
    s.getD (p + i) 0 = 0 := by
  have := getD_drop_zero s p i
  rw [h] at this
  simpa using this.symm

/-- The loop leaves exactly after the run of bytes satisfying the predicate, when the
predicate rejects the 0 byte and the fuel exceeds the length of the run. -/
theorem readWhileLoop_atPos (pred : Nat → Bool) (h0 : pred 0 = false) (input : List Nat) :
    ∀ (fuel p : Nat), ((input.drop p).takeWhile pred).length < fuel →
      Lexer.readWhileLoop pred fuel (Lexer.atPos input p)
        = some (Lexer.atPos input (p + ((input.drop p).takeWhile pred).length)) := by
  intro fuel
  induction fuel with
  | zero => intro p h; omega
  | succ n ih =>
    intro p h
    unfold Lexer.readWhileLoop
    cases hd : input.drop p with
    | nil =>
      have hc : (Lexer.atPos input p).ch = 0 := by
        have := drop_nil_getD hd 0
        simpa [Lexer.atPos] using this
      simp [hc, h0]
    | cons c r =>
      obtain ⟨hc, hr⟩ := drop_cons_getD hd
      have hch : (Lexer.atPos input p).ch = c := by simpa [Lexer.atPos] using hc
      rw [hch]
      by_cases hp : pred c = true
      · rw [hd] at h
        simp only [List.takeWhile_cons, hp, if_true, List.length_cons] at h ⊢
        rw [readChar_atPos, ih (p + 1) (by rw [hr]; omega), hr]
        congr 2; omega
      · simp [List.takeWhile_cons, hp]

/-! ## What one call does, as a function of the unread input -/

theorem take_length_takeWhile (pred : Nat → Bool) (s : List Nat) :
    s.take (s.takeWhile pred).length = s.takeWhile pred := by
  induction s with
  | nil => rfl
  | cons a t ih =>
    by_cases h : pred a = true
    · simp [List.takeWhile_cons, h, ih]
    · simp [List.takeWhile_cons, h]

theorem length_takeWhile_le_length (pred : Nat → Bool) (s : List Nat) :
    (s.takeWhile pred).length ≤ s.length := by
  induction s with
  | nil => simp
  | cons a t ih =>
    by_cases h : pred a = true
    · simp [List.takeWhile_cons, h, ih]
    · simp [List.takeWhile_cons, h]

theorem length_takeWhile_drop_le (pred : Nat → Bool) (s : List Nat) (p : Nat) :
    ((s.drop p).takeWhile pred).length ≤ s.length - p := by
  have := length_takeWhile_le_length pred (s.drop p)
  simpa using this

/-- The method `readWhile` on a reached state whose cursor is inside the input. -/
theorem readWhile_atPos (pred : Nat → Bool) (h0 : pred 0 = false) (input : List Nat)
    (p : Nat) (hp : p ≤ input.length) :
    (Lexer.atPos input p).readWhile pred
      = some ((input.drop p).takeWhile pred,
          Lexer.atPos input (p + ((input.drop p).takeWhile pred).length)) := by
  have hlen := length_takeWhile_drop_le pred input p
  unfold Lexer.readWhile
  have hfuel : ((input.drop p).takeWhile pred).length < (Lexer.atPos input p).fuel := by
    simp only [Lexer.fuel, Lexer.atPos]; omega
  rw [readWhileLoop_atPos pred h0 input _ p hfuel]
  have hs : goSlice input p (p + ((input.drop p).takeWhile pred).length)
      = some ((input.drop p).takeWhile pred) := by
    unfold goSlice
    rw [if_pos ⟨by omega, by omega⟩]
    simp [take_length_takeWhile]
  simp only [Lexer.atPos] at hs ⊢
  rw [hs]

theorem lt_length_of_getD_ne_zero {s : List Nat} {q : Nat} (h : s.getD q 0 ≠ 0) :
    q < s.length := by
  by_contra hq
  apply h
  simp [List.getD, List.getElem?_eq_none (Nat.le_of_not_lt hq)]

/-- One call of `NextToken` on a reached state returns, and does what `scanToken` says on
the unread input. -/
theorem NextToken_atPos (input : List Nat) (p : Nat) :
    (Lexer.atPos input p).NextToken
      = some ((scanToken (input.drop p)).1,
          Lexer.atPos input (p + (scanToken (input.drop p)).2)) := by
  have hlen := length_takeWhile_drop_le isWhitespace input p
  have hfuel : ((input.drop p).takeWhile isWhitespace).length
      < (Lexer.atPos input p).fuel := by
    simp only [Lexer.fuel, Lexer.atPos]; omega
  unfold Lexer.NextToken Lexer.skipWhitespace scanToken
  rw [readWhileLoop_atPos isWhitespace rfl input _ p hfuel]
  simp only [List.drop_drop]
  generalize ((input.drop p).takeWhile isWhitespace).length = n
  rw [← Nat.add_assoc]
  generalize p + n = q
  have hch : (Lexer.atPos input q).ch = (input.drop q).getD 0 0 := by
    rw [getD_drop_zero]; rfl
  have hpk : (Lexer.atPos input q).peekChar = (input.drop q).getD 1 0 := by
    rw [getD_drop_zero, peekChar_atPos]
  have hch1 : (Lexer.atPos input (q + 1)).ch = (input.drop q).getD 1 0 := by
    rw [getD_drop_zero]; rfl
  have hq : (input.drop q).getD 0 0 ≠ 0 → q ≤ input.length := by
    intro h
    rw [getD_drop_zero] at h
    exact Nat.le_of_lt (lt_length_of_getD_ne_zero h)
  unfold scanHead
  simp only [readChar_atPos, hch, hpk, hch1, Lexer.readIdentifier, Lexer.readNumber]
  generalize (input.drop q).getD 0 0 = c at hq
  generalize (input.drop q).getD 1 0 = d
  cases hl : SingleByteLiteralToType.lookup c with
  | some t => rfl
  | none =>
    simp only
    by_cases h61 : c = 61
    · subst h61
      by_cases hp61 : d = 61
      · simp [hp61, stringOfByte, TokenType.Token, Nat.add_assoc]
      · simp [hp61, stringOfByte, TokenType.Token]
    · by_cases h33 : c = 33
      · subst h33
        by_cases hp61 : d = 61
        · simp [hp61, stringOfByte, TokenType.Token, Nat.add_assoc]
        · simp [hp61, stringOfByte, TokenType.Token]
      · have hc0 : c ≠ 0 := by
          intro h; subst h; simp [SingleByteLiteralToType, List.lookup] at hl
        have hq := hq hc0
        by_cases hL : isLetter c = true
        · simp [h61, h33, hL, readWhile_atPos isLetter rfl input q hq]
        · by_cases hD : isDigit c = true
          · simp [h61, h33, hL, hD, readWhile_atPos isDigit rfl input q hq]
          · simp [h61, h33, hL, hD]

/-! ## Byte classes -/

theorem lookup_single_none {c : Nat} (h0 : c ≠ 0) (h1 : c ≠ 43) (h2 : c ≠ 44) (h3 : c ≠ 59)
    (h4 : c ≠ 40) (h5 : c ≠ 41) (h6 : c ≠ 123) (h7 : c ≠ 125) (h8 : c ≠ 45) (h9 : c ≠ 42)
    (h10 : c ≠ 47) (h11 : c ≠ 60) (h12 : c ≠ 62) :
    SingleByteLiteralToType.lookup c = none := by
  simp only [SingleByteLiteralToType, List.lookup, beq_false_of_ne h0, beq_false_of_ne h1,
    beq_false_of_ne h2, beq_false_of_ne h3, beq_false_of_ne h4, beq_false_of_ne h5,
    beq_false_of_ne h6, beq_false_of_ne h7, beq_false_of_ne h8, beq_false_of_ne h9,
    beq_false_of_ne h10, beq_false_of_ne h11, beq_false_of_ne h12]

theorem isLetter_iff (c : Nat) :
    isLetter c = true ↔ (97 ≤ c ∧ c ≤ 122) ∨ (65 ≤ c ∧ c ≤ 90) ∨ c = 95 := by
  simp [isLetter, or_assoc]

theorem isDigit_iff (c : Nat) : isDigit c = true ↔ 48 ≤ c ∧ c ≤ 57 := by
  simp [isDigit]

theorem isWhitespace_iff (c : Nat) :
    isWhitespace c = true ↔ c = 32 ∨ c = 9 ∨ c = 10 ∨ c = 13 := by
  simp [isWhitespace, or_assoc]

theorem lookup_single_of_isLetter {c : Nat} (h : isLetter c = true) :
    SingleByteLiteralToType.lookup c = none := by
  rw [isLetter_iff] at h
  apply lookup_single_none <;> omega

theorem lookup_single_of_isDigit {c : Nat} (h : isDigit c = true) :
    SingleByteLiteralToType.lookup c = none := by
  rw [isDigit_iff] at h
  apply lookup_single_none <;> omega

theorem not_isWhitespace_of_isLetter {c : Nat} (h : isLetter c = true) :
    isWhitespace c = false := by
  rw [isLetter_iff] at h
  rw [Bool.eq_false_iff, Ne, isWhitespace_iff]
  omega

theorem not_isWhitespace_of_isDigit {c : Nat} (h : isDigit c = true) :
    isWhitespace c = false := by
  rw [isDigit_iff] at h
  rw [Bool.eq_false_iff, Ne, isWhitespace_iff]
  omega

theorem not_isLetter_of_isDigit {c : Nat} (h : isDigit c = true) : isLetter c = false := by
  rw [isDigit_iff] at h
  rw [Bool.eq_false_iff, Ne, isLetter_iff]
  omega

theorem takeWhile_eq_self_of_all (pred : Nat → Bool) (s : List Nat)
    (h : ∀ b ∈ s, pred b = true) : s.takeWhile pred = s := by
  induction s with
  | nil => rfl
  | cons a t ih =>
    have ha := h a (List.mem_cons_self a t)
    simp only [List.takeWhile_cons, ha, if_true]
    rw [ih (fun b hb => h b (List.mem_cons_of_mem a hb))]

/-- The unread input `s` with its leading whitespace bytes removed. -/
theorem scanToken_of_head (c : Nat) (r : List Nat) (hc : isWhitespace c = false) :
    scanToken (c :: r) = scanHead (c :: r) := by
  simp [scanToken, List.takeWhile_cons, hc]

theorem scanHead_of_isLetter (c : Nat) (r : List Nat) (h : isLetter c = true) :
    scanHead (c :: r)
      = ((LookupIdent ((c :: r).takeWhile isLetter)).Token ((c :: r).takeWhile isLetter),
          ((c :: r).takeWhile isLetter).length) := by
  have hl := lookup_single_of_isLetter h
  have h61 : c ≠ 61 := by rw [isLetter_iff] at h; omega
  have h33 : c ≠ 33 := by rw [isLetter_iff] at h; omega
  unfold scanHead
  simp only [List.getD_cons_zero, hl, h61, h33, h, if_false, if_true]

theorem scanHead_of_isDigit (c : Nat) (r : List Nat) (h : isDigit c = true) :
    scanHead (c :: r)
      = (INT.Token ((c :: r).takeWhile isDigit), ((c :: r).takeWhile isDigit).length) := by
  have hl := lookup_single_of_isDigit h
  have hL := not_isLetter_of_isDigit h
  have h61 : c ≠ 61 := by rw [isDigit_iff] at h; omega
  have h33 : c ≠ 33 := by rw [isDigit_iff] at h; omega
  unfold scanHead
  simp only [List.getD_cons_zero, hl, h61, h33, h, hL, if_false, if_true]
  simp

/-! ## Successive calls, as functions of the unread input -/

theorem drop_add_scan (input : List Nat) (p : Nat) :
    input.drop (p + (scanToken (input.drop p)).2) = scanRest (input.drop p) := by
  unfold scanRest
  rw [List.drop_drop]

theorem nthToken_atPos (input : List Nat) :
    ∀ (k p : Nat), (Lexer.atPos input p).nthToken k = some (scanNth k (input.drop p)) := by
  intro k
  induction k with
  | zero => intro p; simp [Lexer.nthToken, NextToken_atPos, scanNth]
  | succ n ih =>
    intro p
    simp only [Lexer.nthToken, NextToken_atPos, scanNth]
    rw [ih, drop_add_scan]

theorem nextTokens_atPos (input : List Nat) :
    ∀ (k p : Nat), (Lexer.atPos input p).nextTokens k
      = some (scanList k (input.drop p), Lexer.atPos input (scanPos input k p)) := by
  intro k
  induction k with
  | zero => intro p; rfl
  | succ n ih =>
    intro p
    simp only [Lexer.nextTokens, NextToken_atPos, scanList, scanPos]
    rw [ih, drop_add_scan]

theorem takeWhile_append_stop (pred : Nat → Bool) (ws : List Nat) (c : Nat) (r : List Nat)
    (hws : ∀ b ∈ ws, pred b = true) (hc : pred c = false) :
    (ws ++ c :: r).takeWhile pred = ws := by
  induction ws with
  | nil => simp [List.takeWhile_cons, hc]
  | cons a t ih =>
    have ha := hws a (List.mem_cons_self a t)
    simp only [List.cons_append, List.takeWhile_cons, ha, if_true]
    rw [ih (fun b hb => hws b (List.mem_cons_of_mem a hb))]

/-- Leading whitespace is skipped: the call on `ws ++ c :: r` returns the token at the head
of `c :: r` and moves the cursor over the whitespace and that token. -/
theorem scanToken_skip (ws : List Nat) (c : Nat) (r : List Nat)
    (hws : ∀ b ∈ ws, isWhitespace b = true) (hc : isWhitespace c = false) :
    scanToken (ws ++ c :: r) = ((scanHead (c :: r)).1, ws.length + (scanHead (c :: r)).2) := by
  unfold scanToken
  simp only [takeWhile_append_stop isWhitespace ws c r hws hc, List.drop_left]

theorem scanToken_all_whitespace (ws : List Nat) (hws : ∀ b ∈ ws, isWhitespace b = true) :
    scanToken ws = (EOF.Token [0], ws.length + 1) := by
  unfold scanToken
  simp only [takeWhile_eq_self_of_all isWhitespace ws hws, List.drop_length]
  rfl

theorem head?_eq_some_iff_getD (r : List Nat) (c : Nat) (hc : c ≠ 0) :
    r.head? = some c ↔ r.getD 0 0 = c := by
  cases r with
  | nil => simp [Ne.symm hc]
  | cons a t => simp

theorem scanHead_assign (r : List Nat) :
    scanHead (61 :: r)
      = if r.head? = some 61 then (EQ.Token [61, 61], 2) else (ASSIGN.Token [61], 1) := by
  have hl : SingleByteLiteralToType.lookup 61 = none := by decide
  unfold scanHead
  simp only [List.getD_cons_zero, List.getD_cons_succ, hl, if_true,
    head?_eq_some_iff_getD r 61 (by decide)]

theorem scanHead_bang (r : List Nat) :
    scanHead (33 :: r)
      = if r.head? = some 61 then (NOT_EQ.Token [33, 61], 2) else (BANG.Token [33], 1) := by
  have hl : SingleByteLiteralToType.lookup 33 = none := by decide
  have h : (33 : Nat) ≠ 61 := by decide
  unfold scanHead
  simp only [List.getD_cons_zero, List.getD_cons_succ, hl, if_true, h, if_false,
    head?_eq_some_iff_getD r 61 (by decide)]

theorem LookupIdent_other {x : List Nat} (h1 : x ≠ [102, 110]) (h2 : x ≠ [108, 101, 116])
    (h3 : x ≠ [116, 114, 117, 101]) (h4 : x ≠ [102, 97, 108, 115, 101])
    (h5 : x ≠ [105, 102]) (h6 : x ≠ [101, 108, 115, 101])
    (h7 : x ≠ [114, 101, 116, 117, 114, 110]) : LookupIdent x = IDENT := by
  simp only [LookupIdent, Keywords, List.lookup, beq_false_of_ne h1, beq_false_of_ne h2,
    beq_false_of_ne h3, beq_false_of_ne h4, beq_false_of_ne h5, beq_false_of_ne h6,
    beq_false_of_ne h7]

theorem LookupIdent_cases (x : List Nat) :
    (x = [102, 110] ∧ LookupIdent x = FUNCTION) ∨ (x = [108, 101, 116] ∧ LookupIdent x = LET)
      ∨ (x = [116, 114, 117, 101] ∧ LookupIdent x = TRUE)
      ∨ (x = [102, 97, 108, 115, 101] ∧ LookupIdent x = FALSE)
      ∨ (x = [105, 102] ∧ LookupIdent x = IF)
      ∨ (x = [101, 108, 115, 101] ∧ LookupIdent x = ELSE)
      ∨ (x = [114, 101, 116, 117, 114, 110] ∧ LookupIdent x = RETURN)
      ∨ ((x ≠ [102, 110] ∧ x ≠ [108, 101, 116] ∧ x ≠ [116, 114, 117, 101]
          ∧ x ≠ [102, 97, 108, 115, 101] ∧ x ≠ [105, 102] ∧ x ≠ [101, 108, 115, 101]
          ∧ x ≠ [114, 101, 116, 117, 114, 110]) ∧ LookupIdent x = IDENT) := by
  by_cases h1 : x = [102, 110]
  · subst h1; exact Or.inl ⟨rfl, rfl⟩
  by_cases h2 : x = [108, 101, 116]
  · subst h2; exact Or.inr (Or.inl ⟨rfl, rfl⟩)
  by_cases h3 : x = [116, 114, 117, 101]
  · subst h3; exact Or.inr (Or.inr (Or.inl ⟨rfl, rfl⟩))
  by_cases h4 : x = [102, 97, 108, 115, 101]
  · subst h4; exact Or.inr (Or.inr (Or.inr (Or.inl ⟨rfl, rfl⟩)))
  by_cases h5 : x = [105, 102]
  · subst h5; exact Or.inr (Or.inr (Or.inr (Or.inr (Or.inl ⟨rfl, rfl⟩))))
  by_cases h6 : x = [101, 108, 115, 101]
  · subst h6; exact Or.inr (Or.inr (Or.inr (Or.inr (Or.inr (Or.inl ⟨rfl, rfl⟩)))))
  by_cases h7 : x = [114, 101, 116, 117, 114, 110]
  · subst h7; exact Or.inr (Or.inr (Or.inr (Or.inr (Or.inr (Or.inr (Or.inl ⟨rfl, rfl⟩))))))
  · exact Or.inr (Or.inr (Or.inr (Or.inr (Or.inr (Or.inr (Or.inr
      ⟨⟨h1, h2, h3, h4, h5, h6, h7⟩, LookupIdent_other h1 h2 h3 h4 h5 h6 h7⟩))))))

theorem LookupIdent_ne_eof (x : List Nat) : LookupIdent x ≠ EOF := by
  rcases LookupIdent_cases x with h | h | h | h | h | h | h | h <;> rw [h.2] <;> decide

theorem lookup_single_cases (c : Nat) :
    (c = 0 ∧ SingleByteLiteralToType.lookup c = some EOF)
      ∨ (c = 43 ∧ SingleByteLiteralToType.lookup c = some PLUS)
      ∨ (c = 44 ∧ SingleByteLiteralToType.lookup c = some COMMA)
      ∨ (c = 59 ∧ SingleByteLiteralToType.lookup c = some SEMICOLON)
      ∨ (c = 40 ∧ SingleByteLiteralToType.lookup c = some LPAREN)
      ∨ (c = 41 ∧ SingleByteLiteralToType.lookup c = some RPAREN)
      ∨ (c = 123 ∧ SingleByteLiteralToType.lookup c = some LBRACE)
      ∨ (c = 125 ∧ SingleByteLiteralToType.lookup c = some RBRACE)
      ∨ (c = 45 ∧ SingleByteLiteralToType.lookup c = some MINUS)
      ∨ (c = 42 ∧ SingleByteLiteralToType.lookup c = some ASTERISK)
      ∨ (c = 47 ∧ SingleByteLiteralToType.lookup c = some SLASH)
      ∨ (c = 60 ∧ SingleByteLiteralToType.lookup c = some TokenType.LT)
      ∨ (c = 62 ∧ SingleByteLiteralToType.lookup c = some GT)
      ∨ ((c ≠ 0 ∧ c ≠ 43 ∧ c ≠ 44 ∧ c ≠ 59 ∧ c ≠ 40 ∧ c ≠ 41 ∧ c ≠ 123 ∧ c ≠ 125 ∧ c ≠ 45
          ∧ c ≠ 42 ∧ c ≠ 47 ∧ c ≠ 60 ∧ c ≠ 62) ∧ SingleByteLiteralToType.lookup c = none) := by
  by_cases h0 : c = 0
  · subst h0; simp [SingleByteLiteralToType, List.lookup]
  by_cases h1 : c = 43
  · subst h1; simp [SingleByteLiteralToType, List.lookup]
  by_cases h2 : c = 44
  · subst h2; simp [SingleByteLiteralToType, List.lookup]
  by_cases h3 : c = 59
  · subst h3; simp [SingleByteLiteralToType, List.lookup]
  by_cases h4 : c = 40
  · subst h4; simp [SingleByteLiteralToType, List.lookup]
  by_cases h5 : c = 41
  · subst h5; simp [SingleByteLiteralToType, List.lookup]
  by_cases h6 : c = 123
  · subst h6; simp [SingleByteLiteralToType, List.lookup]
  by_cases h7 : c = 125
  · subst h7; simp [SingleByteLiteralToType, List.lookup]
  by_cases h8 : c = 45
  · subst h8; simp [SingleByteLiteralToType, List.lookup]
  by_cases h9 : c = 42
  · subst h9; simp [SingleByteLiteralToType, List.lookup]
  by_cases h10 : c = 47
  · subst h10; simp [SingleByteLiteralToType, List.lookup]
  by_cases h11 : c = 60
  · subst h11; simp [SingleByteLiteralToType, List.lookup]
  by_cases h12 : c = 62
  · subst h12; simp [SingleByteLiteralToType, List.lookup]
  · simp only [h0, h1, h2, h3, h4, h5, h6, h7, h8, h9, h10, h11, h12, false_and, false_or]
    exact ⟨⟨h0, h1, h2, h3, h4, h5, h6, h7, h8, h9, h10, h11, h12⟩,
      lookup_single_none h0 h1 h2 h3 h4 h5 h6 h7 h8 h9 h10 h11 h12⟩

theorem lookup_single_eof {c : Nat} (h : SingleByteLiteralToType.lookup c = some EOF) :
    c = 0 := by
  rcases lookup_single_cases c with
    h1 | h1 | h1 | h1 | h1 | h1 | h1 | h1 | h1 | h1 | h1 | h1 | h1 | h1
  · exact h1.1
  all_goals (rw [h1.2] at h; simp at h)

theorem scanHead_nil : scanHead [] = (EOF.Token [0], 1) := by decide

/-- The branches of one call, by the shape of the unread input `r` (leading whitespace
already skipped). -/
theorem scanHead_cases (r : List Nat) :
    (∃ t, SingleByteLiteralToType.lookup (r.getD 0 0) = some t
        ∧ scanHead r = (t.Token (stringOfByte (r.getD 0 0)), 1))
    ∨ (∃ t, r = 61 :: 61 :: t ∧ scanHead r = (EQ.Token [61, 61], 2))
    ∨ (∃ t, r = 61 :: t ∧ t.head? ≠ some 61 ∧ scanHead r = (ASSIGN.Token [61], 1))
    ∨ (∃ t, r = 33 :: 61 :: t ∧ scanHead r = (NOT_EQ.Token [33, 61], 2))
    ∨ (∃ t, r = 33 :: t ∧ t.head? ≠ some 61 ∧ scanHead r = (BANG.Token [33], 1))
    ∨ (∃ c t, r = c :: t ∧ isLetter c = true
        ∧ scanHead r = ((LookupIdent (r.takeWhile isLetter)).Token (r.takeWhile isLetter),
            (r.takeWhile isLetter).length))
    ∨ (∃ c t, r = c :: t ∧ isDigit c = true
        ∧ scanHead r = (INT.Token (r.takeWhile isDigit), (r.takeWhile isDigit).length))
    ∨ (∃ c t, r = c :: t ∧ SingleByteLiteralToType.lookup c = none ∧ c ≠ 61 ∧ c ≠ 33
        ∧ isLetter c = false ∧ isDigit c = false
        ∧ scanHead r = (ILLEGAL.Token (stringOfByte c), 1)) := by
  cases r with
  | nil => exact Or.inl ⟨EOF, by decide, by decide⟩
  | cons c t =>
    cases hl : SingleByteLiteralToType.lookup c with
    | some k =>
      refine Or.inl ⟨k, by simpa using hl, ?_⟩
      unfold scanHead
      simp only [List.getD_cons_zero, hl]
    | none =>
      by_cases h61 : c = 61
      · subst h61
        rw [scanHead_assign]
        by_cases hh : t.head? = some 61
        · refine Or.inr (Or.inl ⟨t.tail, ?_, by simp [hh]⟩)
          cases t with
          | nil => simp at hh
          | cons a u => simp at hh; simp [hh]
        · exact Or.inr (Or.inr (Or.inl ⟨t, rfl, hh, by simp [hh]⟩))
      by_cases h33 : c = 33
      · subst h33
        rw [scanHead_bang]
        by_cases hh : t.head? = some 61
        · refine Or.inr (Or.inr (Or.inr (Or.inl ⟨t.tail, ?_, by simp [hh]⟩)))
          cases t with
          | nil => simp at hh
          | cons a u => simp at hh; simp [hh]
        · exact Or.inr (Or.inr (Or.inr (Or.inr (Or.inl ⟨t, rfl, hh, by simp [hh]⟩))))
      by_cases hL : isLetter c = true
      · exact Or.inr (Or.inr (Or.inr (Or.inr (Or.inr (Or.inl
          ⟨c, t, rfl, hL, scanHead_of_isLetter c t hL⟩)))))
      by_cases hD : isDigit c = true
      · exact Or.inr (Or.inr (Or.inr (Or.inr (Or.inr (Or.inr (Or.inl
          ⟨c, t, rfl, hD, scanHead_of_isDigit c t hD⟩))))))
      · refine Or.inr (Or.inr (Or.inr (Or.inr (Or.inr (Or.inr (Or.inr
          ⟨c, t, rfl, hl, h61, h33, by simpa using hL, by simpa using hD, ?_⟩))))))
        unfold scanHead
        simp only [List.getD_cons_zero, hl, h61, h33, hL, hD, if_false]
        simp

/-- A call returns a token of kind `EOF` only on a 0 byte: the sentinel past the end of the
input, or a 0 byte of the input itself. -/
theorem scanHead_eof {r : List Nat} (h : (scanHead r).1.Kind = EOF) : r.getD 0 0 = 0 := by
  rcases scanHead_cases r with ⟨t, hl, hs⟩ | ⟨t, _, hs⟩ | ⟨t, _, _, hs⟩ | ⟨t, _, hs⟩
    | ⟨t, _, _, hs⟩ | ⟨c, t, _, _, hs⟩ | ⟨c, t, _, _, hs⟩ | ⟨c, t, _, _, _, _, _, _, hs⟩
  · rw [hs] at h
    simp only [TokenType.Token] at h
    subst h
    exact lookup_single_eof hl
  all_goals (rw [hs] at h; simp only [TokenType.Token] at h)
  all_goals first
    | exact absurd h (by decide)
    | exact absurd h (LookupIdent_ne_eof _)

theorem scanToken_nil : scanToken [] = (EOF.Token [0], 1) := by decide

theorem scanRest_nil : scanRest [] = [] := by decide

theorem scanNth_nil : ∀ k : Nat, scanNth k [] = EOF.Token [0] := by
  intro k
  induction k with
  | zero => decide
  | succ n ih => simp only [scanNth, scanRest_nil, ih]

theorem takeWhile_cons_length_pos (pred : Nat → Bool) (c : Nat) (r : List Nat)
    (h : pred c = true) : 1 ≤ ((c :: r).takeWhile pred).length := by
  simp [List.takeWhile_cons, h]

/-- Every call moves the cursor by at least one byte past the head of the token. -/
theorem scanHead_adv_pos (r : List Nat) : 1 ≤ (scanHead r).2 := by
  rcases scanHead_cases r with ⟨t, hl, hs⟩ | ⟨t, _, hs⟩ | ⟨t, _, _, hs⟩ | ⟨t, _, hs⟩
    | ⟨t, _, _, hs⟩ | ⟨c, t, hr, hc, hs⟩ | ⟨c, t, hr, hc, hs⟩ | ⟨c, t, _, _, _, _, _, _, hs⟩
  all_goals rw [hs]
  all_goals first
    | exact Nat.le_refl 1
    | exact Nat.le_succ 1
    | (rw [hr]; exact takeWhile_cons_length_pos _ c t hc)

theorem scanToken_adv_pos (s : List Nat) : 1 ≤ (scanToken s).2 := by
  unfold scanToken
  have := scanHead_adv_pos (s.drop (s.takeWhile isWhitespace).length)
  simp only
  omega

theorem scanRest_length (s : List Nat) : (scanRest s).length ≤ s.length - 1 := by
  unfold scanRest
  have := scanToken_adv_pos s
  simp only [List.length_drop]
  omega

/-- Once as many calls have been made as the unread input has bytes, the next call
returns the end-of-input token. -/
theorem scanNth_of_length_le : ∀ (k : Nat) (s : List Nat), s.length ≤ k →
    scanNth k s = EOF.Token [0] := by
  intro k
  induction k with
  | zero =>
    intro s h
    have : s = [] := List.eq_nil_of_length_eq_zero (Nat.le_zero.mp h)
    subst this; decide
  | succ n ih =>
    intro s h
    simp only [scanNth]
    apply ih
    have := scanRest_length s
    omega

theorem scanRest_of_eof {s : List Nat} (h : (scanToken s).1.Kind = EOF) (h0 : 0 ∉ s) :
    scanRest s = [] := by
  unfold scanToken at h
  simp only at h
  have hc := scanHead_eof h
  unfold scanRest scanToken
  simp only
  cases hd : s.drop (s.takeWhile isWhitespace).length with
  | nil =>
    rw [List.drop_eq_nil_iff] at hd ⊢
    omega
  | cons c t =>
    exfalso
    rw [hd] at hc
    simp only [List.getD_cons_zero] at hc
    apply h0
    apply List.mem_of_mem_drop (n := (s.takeWhile isWhitespace).length)
    rw [hd, hc]
    exact List.mem_cons_self 0 t

theorem not_mem_scanRest {s : List Nat} (h0 : 0 ∉ s) : 0 ∉ scanRest s := by
  intro h
  exact h0 (List.mem_of_mem_drop h)

theorem scanNth_eof_absorbing : ∀ (k : Nat) (s : List Nat), 0 ∉ s →
    (scanNth k s).Kind = EOF → ∀ j, k ≤ j → (scanNth j s).Kind = EOF := by
  intro k
  induction k with
  | zero =>
    intro s h0 h j _
    cases j with
    | zero => exact h
    | succ m =>
      simp only [scanNth] at h ⊢
      rw [scanRest_of_eof h h0, scanNth_nil]
      rfl
  | succ n ih =>
    intro s h0 h j hj
    cases j with
    | zero => omega
    | succ m =>
      simp only [scanNth] at h ⊢
      exact ih (scanRest s) (not_mem_scanRest h0) h m (by omega)

/-- A run of bytes satisfying the predicate, followed by nothing or by a byte that does not
satisfy it, is what `takeWhile` reads. -/
theorem takeWhile_run (pred : Nat → Bool) (run tail : List Nat)
    (hrun : ∀ b ∈ run, pred b = true) (htail : ∀ c, tail.head? = some c → pred c = false) :
    (run ++ tail).takeWhile pred = run := by
  cases tail with
  | nil => rw [List.append_nil]; exact takeWhile_eq_self_of_all pred run hrun
  | cons c t => exact takeWhile_append_stop pred run c t hrun (htail c rfl)

theorem scanHead_illegal (c : Nat) (r : List Nat)
    (hl : SingleByteLiteralToType.lookup c = none) (h61 : c ≠ 61) (h33 : c ≠ 33)
    (hL : isLetter c = false) (hD : isDigit c = false) :
    scanHead (c :: r) = (ILLEGAL.Token (stringOfByte c), 1) := by
  unfold scanHead
  simp only [List.getD_cons_zero, hl, h61, h33, hL, hD, if_false]
  simp

theorem scanHead_of_lookup (c : Nat) (r : List Nat) (t : TokenType)
    (hl : SingleByteLiteralToType.lookup c = some t) :
    scanHead (c :: r) = (t.Token (stringOfByte c), 1) := by
  unfold scanHead
  simp only [List.getD_cons_zero, hl]

theorem stringOfByte_ascii {c : Nat} (h : c < 128) : stringOfByte c = [c] := by
  simp [stringOfByte, h]

/-- On unread input that starts with a byte below 0x80, the literal of the token is the
stretch of input the call reads, and that stretch lies inside the input. -/
theorem scanHead_literal (c : Nat) (r : List Nat) (hc : c < 128) :
    (scanHead (c :: r)).2 ≤ (c :: r).length
      ∧ (scanHead (c :: r)).1.Literal = (c :: r).take (scanHead (c :: r)).2 := by
  rcases scanHead_cases (c :: r) with ⟨t, _, hs⟩ | ⟨t, hr, hs⟩ | ⟨t, hr, _, hs⟩ | ⟨t, hr, hs⟩
    | ⟨t, hr, _, hs⟩ | ⟨d, t, _, _, hs⟩ | ⟨d, t, _, _, hs⟩ | ⟨d, t, hr, _, _, _, _, _, hs⟩
  · rw [hs]
    simp only [List.getD_cons_zero, stringOfByte_ascii hc]
    exact ⟨by simp, by simp [TokenType.Token]⟩
  · rw [hs, hr]; exact ⟨by simp, by simp [TokenType.Token]⟩
  · rw [hs, hr]; exact ⟨by simp, by simp [TokenType.Token]⟩
  · rw [hs, hr]; exact ⟨by simp, by simp [TokenType.Token]⟩
  · rw [hs, hr]; exact ⟨by simp, by simp [TokenType.Token]⟩
  · rw [hs]
    exact ⟨length_takeWhile_le_length _ _, by
      simp only [TokenType.Token]; rw [take_length_takeWhile]⟩
  · rw [hs]
    exact ⟨length_takeWhile_le_length _ _, by
      simp only [TokenType.Token]; rw [take_length_takeWhile]⟩
  · rw [hs]
    have hd : d = c := by simp at hr; exact hr.1.symm
    subst hd
    simp only [stringOfByte_ascii hc]
    exact ⟨by simp, by simp [TokenType.Token]⟩

theorem skipWhitespace_atPos (input : List Nat) (p : Nat) :
    (Lexer.atPos input p).skipWhitespace
      = some (Lexer.atPos input (p + ((input.drop p).takeWhile isWhitespace).length)) := by
  have hlen := length_takeWhile_drop_le isWhitespace input p
  unfold Lexer.skipWhitespace
  apply readWhileLoop_atPos isWhitespace rfl input
  simp only [Lexer.fuel, Lexer.atPos]; omega

/-! ## Whitespace between tokens -/

theorem tokensBeforeEOFLoop_atPos (input : List Nat) :
    ∀ (fuel p : Nat), Lexer.tokensBeforeEOFLoop fuel (Lexer.atPos input p)
      = scanBeforeEOF fuel (input.drop p) := by
  intro fuel
  induction fuel with
  | zero => intro p; rfl
  | succ n ih =>
    intro p
    simp only [Lexer.tokensBeforeEOFLoop, NextToken_atPos, scanBeforeEOF]
    rw [ih, drop_add_scan]

theorem scanBeforeEOF_mono : ∀ (f : Nat) (s : List Nat) (ts : List Token),
    scanBeforeEOF f s = some ts → ∀ g, f ≤ g → scanBeforeEOF g s = some ts := by
  intro f
  induction f with
  | zero => intro s ts h; simp [scanBeforeEOF] at h
  | succ n ih =>
    intro s ts h g hg
    cases g with
    | zero => omega
    | succ m =>
      simp only [scanBeforeEOF] at h ⊢
      by_cases he : (scanToken s).1.Kind = EOF
      · simp only [he, if_true] at h ⊢; exact h
      · simp only [he, if_false] at h ⊢
        cases hr : scanBeforeEOF n (scanRest s) with
        | none => rw [hr] at h; simp at h
        | some us =>
          rw [hr] at h
          rw [ih (scanRest s) us hr m (by omega)]
          exact h

theorem scanBeforeEOF_total : ∀ (f : Nat) (s : List Nat), s.length < f →
    ∃ ts, scanBeforeEOF f s = some ts := by
  intro f
  induction f with
  | zero => intro s h; omega
  | succ n ih =>
    intro s h
    simp only [scanBeforeEOF]
    by_cases he : (scanToken s).1.Kind = EOF
    · exact ⟨[], by simp [he]⟩
    · have hne : s ≠ [] := by
        intro hs; subst hs; exact he (by decide)
      have hpos : 0 < s.length := List.length_pos.mpr hne
      have hlen := scanRest_length s
      obtain ⟨us, hus⟩ := ih (scanRest s) (by omega)
      exact ⟨(scanToken s).1 :: us, by simp [he, hus]⟩

theorem takeWhile_append_of_all (pred : Nat → Bool) (ws s : List Nat)
    (hws : ∀ b ∈ ws, pred b = true) :
    (ws ++ s).takeWhile pred = ws ++ s.takeWhile pred := by
  induction ws with
  | nil => rfl
  | cons a t ih =>
    have ha := hws a (List.mem_cons_self a t)
    simp only [List.cons_append, List.takeWhile_cons, ha, if_true]
    rw [ih (fun b hb => hws b (List.mem_cons_of_mem a hb))]

theorem takeWhile_append_reject (pred : Nat → Bool) (l : List Nat) (y : Nat) (x : List Nat)
    (hy : pred y = false) : (l ++ y :: x).takeWhile pred = l.takeWhile pred := by
  induction l with
  | nil => simp [List.takeWhile_cons, hy]
  | cons a t ih =>
    by_cases ha : pred a = true
    · simp only [List.cons_append, List.takeWhile_cons, ha, if_true, ih]
    · simp [List.takeWhile_cons, ha]

/-- Whitespace in front of the unread input changes no token, only the cursor movement. -/
theorem scanToken_leading_whitespace (ws s : List Nat)
    (hws : ∀ b ∈ ws, isWhitespace b = true) :
    scanToken (ws ++ s) = ((scanToken s).1, ws.length + (scanToken s).2) := by
  unfold scanToken
  simp only [takeWhile_append_of_all isWhitespace ws s hws, List.length_append,
    List.drop_append, Nat.add_assoc]

theorem scanRest_leading_whitespace (ws s : List Nat)
    (hws : ∀ b ∈ ws, isWhitespace b = true) : scanRest (ws ++ s) = scanRest s := by
  unfold scanRest
  rw [scanToken_leading_whitespace ws s hws]
  simp only [List.drop_append]

theorem scanBeforeEOF_leading_whitespace (ws s : List Nat)
    (hws : ∀ b ∈ ws, isWhitespace b = true) (f : Nat) :
    scanBeforeEOF f (ws ++ s) = scanBeforeEOF f s := by
  cases f with
  | zero => rfl
  | succ n =>
    simp only [scanBeforeEOF, scanRest_leading_whitespace ws s hws,
      scanToken_leading_whitespace ws s hws]

/-- Every string is a run of whitespace followed by nothing or by a non-whitespace byte. -/
theorem split_leading_whitespace (s : List Nat) :
    ∃ ws r, s = ws ++ r ∧ (∀ b ∈ ws, isWhitespace b = true)
      ∧ (r = [] ∨ ∃ c t, r = c :: t ∧ isWhitespace c = false) := by
  induction s with
  | nil => exact ⟨[], [], rfl, by simp, Or.inl rfl⟩
  | cons a t ih =>
    by_cases ha : isWhitespace a = true
    · obtain ⟨ws, r, hs, hws, hr⟩ := ih
      refine ⟨a :: ws, r, by rw [hs]; rfl, ?_, hr⟩
      intro b hb
      rcases List.mem_cons.mp hb with h | h
      · rw [h]; exact ha
      · exact hws b h
    · exact ⟨[], a :: t, rfl, by simp, Or.inr ⟨a, t, rfl, by simpa using ha⟩⟩

theorem not_isLetter_of_isWhitespace {c : Nat} (h : isWhitespace c = true) :
    isLetter c = false := by
  rw [isWhitespace_iff] at h
  rw [Bool.eq_false_iff, Ne, isLetter_iff]
  omega

theorem not_isDigit_of_isWhitespace {c : Nat} (h : isWhitespace c = true) :
    isDigit c = false := by
  rw [isWhitespace_iff] at h
  rw [Bool.eq_false_iff, Ne, isDigit_iff]
  omega

theorem head?_append_whitespace_ne (t : List Nat) (y : Nat) (x : List Nat)
    (hy : isWhitespace y = true) (h : t.head? ≠ some 61) :
    (t ++ y :: x).head? ≠ some 61 := by
  cases t with
  | nil =>
    simp only [List.nil_append, List.head?_cons, ne_eq, Option.some.injEq]
    intro h61; subst h61; exact absurd hy (by decide)
  | cons a u => simpa using h

/-- The token at the head of the unread input does not depend on what follows a
whitespace byte behind it, and it ends before that byte. -/
theorem scanHead_before_whitespace (c : Nat) (r : List Nat) (y : Nat) (x : List Nat)
    (hy : isWhitespace y = true) :
    scanHead (c :: (r ++ y :: x)) = scanHead (c :: r)
      ∧ (scanHead (c :: r)).2 ≤ (c :: r).length := by
  rcases scanHead_cases (c :: r) with ⟨t, hl, hs⟩ | ⟨t, hr, hs⟩ | ⟨t, hr, hne, hs⟩
    | ⟨t, hr, hs⟩ | ⟨t, hr, hne, hs⟩ | ⟨d, t, hr, hd, hs⟩ | ⟨d, t, hr, hd, hs⟩
    | ⟨d, t, hr, hl, h61, h33, hL, hD, hs⟩
  · simp only [List.getD_cons_zero] at hl
    rw [scanHead_of_lookup c _ t hl, scanHead_of_lookup c _ t hl]
    exact ⟨rfl, by simp⟩
  · obtain ⟨hc, hr1⟩ := List.cons.inj hr
    subst hc; subst hr1
    rw [hs, List.cons_append, scanHead_assign]
    exact ⟨by simp, by simp⟩
  · obtain ⟨hc, hr1⟩ := List.cons.inj hr
    subst hc; subst hr1
    rw [hs, scanHead_assign, if_neg (head?_append_whitespace_ne r y x hy hne)]
    exact ⟨rfl, by simp⟩
  · obtain ⟨hc, hr1⟩ := List.cons.inj hr
    subst hc; subst hr1
    rw [hs, List.cons_append, scanHead_bang]
    exact ⟨by simp, by simp⟩
  · obtain ⟨hc, hr1⟩ := List.cons.inj hr
    subst hc; subst hr1
    rw [hs, scanHead_bang, if_neg (head?_append_whitespace_ne r y x hy hne)]
    exact ⟨rfl, by simp⟩
  · obtain ⟨hc, hr1⟩ := List.cons.inj hr
    subst hc; subst hr1
    rw [scanHead_of_isLetter c _ hd, scanHead_of_isLetter c _ hd, ← List.cons_append,
      takeWhile_append_reject isLetter (c :: r) y x (not_isLetter_of_isWhitespace hy)]
    exact ⟨rfl, length_takeWhile_le_length _ _⟩
  · obtain ⟨hc, hr1⟩ := List.cons.inj hr
    subst hc; subst hr1
    rw [scanHead_of_isDigit c _ hd, scanHead_of_isDigit c _ hd, ← List.cons_append,
      takeWhile_append_reject isDigit (c :: r) y x (not_isDigit_of_isWhitespace hy)]
    exact ⟨rfl, length_takeWhile_le_length _ _⟩
  · obtain ⟨hc, hr1⟩ := List.cons.inj hr
    subst hc; subst hr1
    rw [scanHead_illegal c _ hl h61 h33 hL hD, scanHead_illegal c _ hl h61 h33 hL hD]
    exact ⟨rfl, by simp⟩

theorem scanToken_before_whitespace (s1 : List Nat) (y : Nat) (x : List Nat)
    (hy : isWhitespace y = true) (hne : (scanToken s1).1.Kind ≠ EOF) :
    scanToken (s1 ++ y :: x) = scanToken s1 ∧ (scanToken s1).2 ≤ s1.length := by
  obtain ⟨ws, r, hs, hws, hr⟩ := split_leading_whitespace s1
  subst hs
  rcases hr with hr | ⟨c, t, hr, hc⟩
  · subst hr
    exfalso
    apply hne
    rw [List.append_nil, scanToken_all_whitespace ws hws]
    rfl
  · subst hr
    obtain ⟨e1, e2⟩ := scanHead_before_whitespace c t y x hy
    rw [List.append_assoc, List.cons_append, scanToken_skip ws c (t ++ y :: x) hws hc,
      scanToken_skip ws c t hws hc, e1]
    refine ⟨rfl, ?_⟩
    simp only [List.length_append, List.length_cons] at e2 ⊢
    omega

theorem scanRest_before_whitespace (s1 : List Nat) (y : Nat) (x : List Nat)
    (hy : isWhitespace y = true) (hne : (scanToken s1).1.Kind ≠ EOF) :
    scanRest (s1 ++ y :: x) = scanRest s1 ++ y :: x := by
  obtain ⟨e1, e2⟩ := scanToken_before_whitespace s1 y x hy hne
  unfold scanRest
  rw [e1, List.drop_append_of_le_length e2]

theorem all_whitespace_of_eof {s : List Nat} (h0 : 0 ∉ s)
    (he : (scanToken s).1.Kind = EOF) : ∀ b ∈ s, isWhitespace b = true := by
  obtain ⟨ws, r, hs, hws, hr⟩ := split_leading_whitespace s
  subst hs
  rcases hr with hr | ⟨c, t, hr, hc⟩
  · subst hr; rw [List.append_nil]; exact hws
  · subst hr
    exfalso
    rw [scanToken_skip ws c t hws hc] at he
    have := scanHead_eof he
    simp only [List.getD_cons_zero] at this
    subst this
    exact h0 (List.mem_append_right ws (List.mem_cons_self 0 t))

/-- The tokens before the end of `s1 ++ w ++ s2` are those of `s1` followed by those of
`s2`, when `s1` has no 0 byte and `w` is a non-empty run of whitespace. -/
theorem scanBeforeEOF_append : ∀ (f1 : Nat) (s1 : List Nat) (a : List Token),
    0 ∉ s1 → scanBeforeEOF f1 s1 = some a →
    ∀ (w s2 : List Nat) (b : List Token) (f2 f : Nat), w ≠ [] →
      (∀ c ∈ w, isWhitespace c = true) → scanBeforeEOF f2 s2 = some b → f1 + f2 ≤ f →
      scanBeforeEOF f (s1 ++ w ++ s2) = some (a ++ b) := by
  intro f1
  induction f1 with
  | zero => intro s1 a _ h; simp [scanBeforeEOF] at h
  | succ n ih =>
    intro s1 a h0 h w s2 b f2 f hw hws hb hf
    simp only [scanBeforeEOF] at h
    by_cases he : (scanToken s1).1.Kind = EOF
    · simp only [he, if_true, Option.some.injEq] at h
      subst h
      have hall := all_whitespace_of_eof h0 he
      have hall2 : ∀ c ∈ s1 ++ w, isWhitespace c = true := by
        intro c hc
        rcases List.mem_append.mp hc with h | h
        · exact hall c h
        · exact hws c h
      rw [scanBeforeEOF_leading_whitespace (s1 ++ w) s2 hall2 f, List.nil_append]
      exact scanBeforeEOF_mono f2 s2 b hb f (by omega)
    · simp only [he, if_false] at h
      cases hr : scanBeforeEOF n (scanRest s1) with
      | none => rw [hr] at h; simp at h
      | some us =>
        rw [hr] at h
        simp only [Option.some.injEq] at h
        subst h
        cases w with
        | nil => exact absurd rfl hw
        | cons y w1 =>
          have hy := hws y (List.mem_cons_self y w1)
          cases f with
          | zero => omega
          | succ m =>
            have hrec := ih (scanRest s1) us (not_mem_scanRest h0) hr (y :: w1) s2 b f2 m
              hw hws hb (by omega)
            rw [List.append_assoc, List.cons_append] at hrec ⊢
            simp only [scanBeforeEOF,
              (scanToken_before_whitespace s1 y (w1 ++ s2) hy he).1, he, if_false,
              scanRest_before_whitespace s1 y (w1 ++ s2) hy he, hrec, List.cons_append]

theorem tokensBeforeEOF_New (s : List Nat) :
    (New s).tokensBeforeEOF = scanBeforeEOF (s.length + 1) s := by
  unfold Lexer.tokensBeforeEOF
  rw [New_eq_atPos, tokensBeforeEOFLoop_atPos, List.drop_zero]
  rfl

/-! ## Claims -/

/-- C1. `LookupIdent` maps the seven spellings fn, let, true, false, if, else, return to
FUNCTION, LET, TRUE, FALSE, IF, ELSE, RETURN and every other string to IDENT; and for
every non-empty input `s` of ASCII letters and underscores only, the first `NextToken` of
`New s` returns the token of kind `LookupIdent s` with literal `s`; "let" gives LET and
"letx" gives IDENT. -/
theorem C1_keyword_classification (s : List Nat) (hne : s ≠ [])
    (hs : ∀ b ∈ s, isLetter b = true) :
    (LookupIdent [102, 110] = FUNCTION ∧ LookupIdent [108, 101, 116] = LET
      ∧ LookupIdent [116, 114, 117, 101] = TRUE
      ∧ LookupIdent [102, 97, 108, 115, 101] = FALSE
      ∧ LookupIdent [105, 102] = IF ∧ LookupIdent [101, 108, 115, 101] = ELSE
      ∧ LookupIdent [114, 101, 116, 117, 114, 110] = RETURN
      ∧ ∀ x : List Nat, x ≠ [102, 110] → x ≠ [108, 101, 116] → x ≠ [116, 114, 117, 101] →
          x ≠ [102, 97, 108, 115, 101] → x ≠ [105, 102] → x ≠ [101, 108, 115, 101] →
          x ≠ [114, 101, 116, 117, 114, 110] → LookupIdent x = IDENT)
    ∧ (∃ l1, (New s).NextToken = some ({ Kind := LookupIdent s, Literal := s }, l1))
    ∧ (New [108, 101, 116]).nthToken 0 = some { Kind := LET, Literal := [108, 101, 116] }
    ∧ (New [108, 101, 116, 120]).nthToken 0
        = some { Kind := IDENT, Literal := [108, 101, 116, 120] } := by
  refine ⟨⟨rfl, rfl, rfl, rfl, rfl, rfl, rfl, ?_⟩, ?_, by decide, by decide⟩
  · intro x h1 h2 h3 h4 h5 h6 h7
    exact LookupIdent_other h1 h2 h3 h4 h5 h6 h7
  · cases s with
    | nil => exact absurd rfl hne
    | cons c r =>
      have hc := hs c (List.mem_cons_self c r)
      rw [New_eq_atPos, NextToken_atPos, List.drop_zero,
        scanToken_of_head c r (not_isWhitespace_of_isLetter hc),
        scanHead_of_isLetter c r hc, takeWhile_eq_self_of_all isLetter (c :: r) hs]
      exact ⟨_, rfl⟩

theorem C1_keyword_classification_witness :
    ([108, 101, 116] ≠ ([] : List Nat)) ∧ (∀ b ∈ [108, 101, 116], isLetter b = true)
    ∧ (∃ l1, (New [108, 101, 116]).NextToken
      = some ({ Kind := LookupIdent [108, 101, 116], Literal := [108, 101, 116] }, l1)) :=
  ⟨by decide, by decide,
    (C1_keyword_classification [108, 101, 116] (by decide) (by decide)).2.1⟩

/-- C2. For every input whose first non-whitespace byte is '=' (respectively '!'),
`NextToken` returns the `EQ` token "==" (respectively `NOT_EQ` "!=") and moves the cursor
two bytes past the whitespace when the next byte is '=', and otherwise returns `ASSIGN`
"=" (respectively `BANG` "!") and moves it one byte, also when it is the last byte; "==="
lexes as EQ, ASSIGN and "!==" as NOT_EQ, ASSIGN. -/
theorem C2_one_char_lookahead (ws rest : List Nat)
    (hws : ∀ b ∈ ws, isWhitespace b = true) :
    ((New (ws ++ 61 :: rest)).NextToken
      = if rest.head? = some 61
        then some ({ Kind := EQ, Literal := [61, 61] },
              Lexer.atPos (ws ++ 61 :: rest) (ws.length + 2))
        else some ({ Kind := ASSIGN, Literal := [61] },
              Lexer.atPos (ws ++ 61 :: rest) (ws.length + 1)))
    ∧ ((New (ws ++ 33 :: rest)).NextToken
      = if rest.head? = some 61
        then some ({ Kind := NOT_EQ, Literal := [33, 61] },
              Lexer.atPos (ws ++ 33 :: rest) (ws.length + 2))
        else some ({ Kind := BANG, Literal := [33] },
              Lexer.atPos (ws ++ 33 :: rest) (ws.length + 1)))
    ∧ (New [61, 61, 61]).nextTokens 2
        = some ([{ Kind := EQ, Literal := [61, 61] }, { Kind := ASSIGN, Literal := [61] }],
            Lexer.atPos [61, 61, 61] 3)
    ∧ (New [33, 61, 61]).nextTokens 2
        = some ([{ Kind := NOT_EQ, Literal := [33, 61] }, { Kind := ASSIGN, Literal := [61] }],
            Lexer.atPos [33, 61, 61] 3) := by
  refine ⟨?_, ?_, by decide, by decide⟩
  · rw [New_eq_atPos, NextToken_atPos, List.drop_zero,
      scanToken_skip ws 61 rest hws (by decide), scanHead_assign]
    by_cases h : rest.head? = some 61
    · simp only [h, if_true, Nat.zero_add]; rfl
    · simp only [h, if_false, Nat.zero_add]; rfl
  · rw [New_eq_atPos, NextToken_atPos, List.drop_zero,
      scanToken_skip ws 33 rest hws (by decide), scanHead_bang]
    by_cases h : rest.head? = some 61
    · simp only [h, if_true, Nat.zero_add]; rfl
    · simp only [h, if_false, Nat.zero_add]; rfl

theorem C2_one_char_lookahead_witness :
    (∀ b ∈ [32, 10], isWhitespace b = true)
    ∧ (New ([32, 10] ++ 61 :: [61, 53])).NextToken
      = some ({ Kind := EQ, Literal := [61, 61] },
          Lexer.atPos ([32, 10] ++ 61 :: [61, 53]) 4) :=
  ⟨by decide, (C2_one_char_lookahead [32, 10] [61, 53] (by decide)).1⟩

/-- C3 as stated fails: on the two-byte input "\x00a" the first call returns a token of
kind `EOF` (for the 0 byte) and the second call returns the identifier "a". -/
theorem C3_eof_not_absorbing_counterexample :
    ¬ (∀ (input : List Nat) (k : Nat) (t : Token),
        (New input).nthToken k = some t → t.Kind = EOF →
        ∀ j, k ≤ j → ∃ u, (New input).nthToken j = some u ∧ u.Kind = EOF) := by
  intro h
  obtain ⟨u, hu, hk⟩ := h [0, 97] 0 { Kind := EOF, Literal := [0] } (by decide) rfl 1 (by decide)
  have h1 : (New [0, 97]).nthToken 1 = some { Kind := IDENT, Literal := [97] } := by decide
  rw [h1] at hu
  cases hu
  exact absurd hk (by decide)

/-- C3, amended. For every input without a 0 byte and every `k`: if call number `k + 1`
of `NextToken` on `New input` returns a token of kind `EOF`, then every later call returns
a token of kind `EOF` too. -/
theorem C3_eof_absorbing_without_zero_byte (input : List Nat) (k : Nat) (t : Token)
    (h0 : 0 ∉ input) (hk : (New input).nthToken k = some t) (hEOF : t.Kind = EOF) :
    ∀ j, k ≤ j → ∃ u, (New input).nthToken j = some u ∧ u.Kind = EOF := by
  intro j hj
  rw [New_eq_atPos, nthToken_atPos, List.drop_zero] at hk ⊢
  cases hk
  exact ⟨_, rfl, scanNth_eof_absorbing k input h0 hEOF j hj⟩

theorem C3_eof_absorbing_without_zero_byte_witness :
    0 ∉ [97, 32] ∧ (New [97, 32]).nthToken 1 = some { Kind := EOF, Literal := [0] }
    ∧ ∀ j, 1 ≤ j → ∃ u, (New [97, 32]).nthToken j = some u ∧ u.Kind = EOF :=
  ⟨by decide, by decide,
    C3_eof_absorbing_without_zero_byte [97, 32] 1 { Kind := EOF, Literal := [0] }
      (by decide) (by decide) rfl⟩

/-- C4. For every input of byte length `n`, call number `n + 1` of `NextToken` on
`New input` and every later call return exactly the token of kind `EOF` with literal
"\x00"; in particular the first call on the empty input does. -/
theorem C4_reaches_eof_and_stays (input : List Nat) (k : Nat) (hk : input.length ≤ k) :
    (New input).nthToken k = some { Kind := EOF, Literal := [0] }
    ∧ (New []).nthToken 0 = some { Kind := EOF, Literal := [0] } := by
  refine ⟨?_, by decide⟩
  rw [New_eq_atPos, nthToken_atPos, List.drop_zero, scanNth_of_length_le k input hk]
  rfl

theorem C4_reaches_eof_and_stays_witness :
    [108, 101, 116, 32, 120].length ≤ 5
    ∧ (New [108, 101, 116, 32, 120]).nthToken 5 = some { Kind := EOF, Literal := [0] } :=
  ⟨by decide, (C4_reaches_eof_and_stays [108, 101, 116, 32, 120] 5 (by decide)).1⟩

/-- C5. For every input whose first non-whitespace byte `b` is one of
`+ , ; ( ) { } - * / < >`, `NextToken` returns the token of kind PLUS, COMMA, SEMICOLON,
LPAREN, RPAREN, LBRACE, RBRACE, MINUS, ASTERISK, SLASH, LT, GT respectively whose literal
is the one-byte string `b`, and moves the cursor exactly one byte past the whitespace,
whatever follows. -/
theorem C5_single_byte_tokens (ws rest : List Nat) (b : Nat) (t : TokenType)
    (hws : ∀ c ∈ ws, isWhitespace c = true)
    (hb : (b, t) ∈ [(43, PLUS), (44, COMMA), (59, SEMICOLON), (40, LPAREN), (41, RPAREN),
      (123, LBRACE), (125, RBRACE), (45, MINUS), (42, ASTERISK), (47, SLASH),
      (60, TokenType.LT), (62, GT)]) :
    (New (ws ++ b :: rest)).NextToken
      = some ({ Kind := t, Literal := [b] }, Lexer.atPos (ws ++ b :: rest) (ws.length + 1)) := by
  have key : isWhitespace b = false ∧ scanHead (b :: rest) = ({ Kind := t, Literal := [b] }, 1) := by
    simp only [List.mem_cons, Prod.mk.injEq, List.mem_singleton, List.not_mem_nil,
      or_false] at hb
    rcases hb with h | h | h | h | h | h | h | h | h | h | h | h
    all_goals (obtain ⟨hb1, ht1⟩ := h; subst hb1; subst ht1; exact ⟨by decide, by
      unfold scanHead; simp [SingleByteLiteralToType, List.lookup, stringOfByte,
        TokenType.Token]⟩)
  rw [New_eq_atPos, NextToken_atPos, List.drop_zero, scanToken_skip ws b rest hws key.1,
    key.2, Nat.zero_add]

theorem C5_single_byte_tokens_witness :
    (∀ c ∈ [32, 9], isWhitespace c = true)
    ∧ (New ([32, 9] ++ 123 :: [125, 125])).NextToken
      = some ({ Kind := LBRACE, Literal := [123] },
          Lexer.atPos ([32, 9] ++ 123 :: [125, 125]) 3) :=
  ⟨by decide, C5_single_byte_tokens [32, 9] [125, 125] 123 LBRACE (by decide) (by decide)⟩

/-- C6. For every input whose first non-whitespace byte is an ASCII digit, `NextToken`
returns the `INT` token whose literal is the longest run of ASCII digits starting at that
byte and leaves the cursor on the byte right after the run; a leading '-' is not part of
the literal: "-5" lexes as `MINUS` "-" followed by `INT` "5". -/
theorem C6_integer_literals (ws run tail : List Nat)
    (hws : ∀ c ∈ ws, isWhitespace c = true) (hne : run ≠ [])
    (hrun : ∀ b ∈ run, isDigit b = true)
    (htail : ∀ c, tail.head? = some c → isDigit c = false) :
    (New (ws ++ run ++ tail)).NextToken
      = some ({ Kind := INT, Literal := run },
          Lexer.atPos (ws ++ run ++ tail) (ws.length + run.length))
    ∧ (New [45, 53]).nextTokens 2
      = some ([{ Kind := MINUS, Literal := [45] }, { Kind := INT, Literal := [53] }],
          Lexer.atPos [45, 53] 2) := by
  refine ⟨?_, by decide⟩
  cases run with
  | nil => exact absurd rfl hne
  | cons d run1 =>
    have hd := hrun d (List.mem_cons_self d run1)
    have htw := takeWhile_run isDigit (d :: run1) tail hrun htail
    rw [List.cons_append] at htw
    rw [List.append_assoc, List.cons_append, New_eq_atPos, NextToken_atPos, List.drop_zero,
      scanToken_skip ws d (run1 ++ tail) hws (not_isWhitespace_of_isDigit hd),
      scanHead_of_isDigit d (run1 ++ tail) hd, htw, Nat.zero_add]
    rfl

theorem C6_integer_literals_witness :
    (∀ c ∈ [32], isWhitespace c = true) ∧ [49, 48] ≠ ([] : List Nat)
    ∧ (∀ b ∈ [49, 48], isDigit b = true)
    ∧ (∀ c, [59, 55].head? = some c → isDigit c = false)
    ∧ (New ([32] ++ [49, 48] ++ [59, 55])).NextToken
      = some ({ Kind := INT, Literal := [49, 48] },
          Lexer.atPos ([32] ++ [49, 48] ++ [59, 55]) 3) :=
  ⟨by decide, by decide, by decide, by simp [isDigit],
    (C6_integer_literals [32] [49, 48] [59, 55] (by decide) (by decide) (by decide)
      (by simp [isDigit])).1⟩

/-- C7. For every input whose first non-whitespace byte is an ASCII letter or underscore,
`NextToken` returns the token whose literal is the longest run of ASCII letters and
underscores starting at that byte and whose kind is `LookupIdent` of that literal, and
leaves the cursor on the byte right after the run; digits do not extend the run: "x1"
lexes as `IDENT` "x" followed by `INT` "1". -/
theorem C7_identifiers_and_keywords (ws run tail : List Nat)
    (hws : ∀ c ∈ ws, isWhitespace c = true) (hne : run ≠ [])
    (hrun : ∀ b ∈ run, isLetter b = true)
    (htail : ∀ c, tail.head? = some c → isLetter c = false) :
    (New (ws ++ run ++ tail)).NextToken
      = some ({ Kind := LookupIdent run, Literal := run },
          Lexer.atPos (ws ++ run ++ tail) (ws.length + run.length))
    ∧ (New [120, 49]).nextTokens 2
      = some ([{ Kind := IDENT, Literal := [120] }, { Kind := INT, Literal := [49] }],
          Lexer.atPos [120, 49] 2) := by
  refine ⟨?_, by decide⟩
  cases run with
  | nil => exact absurd rfl hne
  | cons d run1 =>
    have hd := hrun d (List.mem_cons_self d run1)
    have htw := takeWhile_run isLetter (d :: run1) tail hrun htail
    rw [List.cons_append] at htw
    rw [List.append_assoc, List.cons_append, New_eq_atPos, NextToken_atPos, List.drop_zero,
      scanToken_skip ws d (run1 ++ tail) hws (not_isWhitespace_of_isLetter hd),
      scanHead_of_isLetter d (run1 ++ tail) hd, htw, Nat.zero_add]
    rfl

theorem C7_identifiers_and_keywords_witness :
    (∀ c ∈ [10], isWhitespace c = true) ∧ [105, 102] ≠ ([] : List Nat)
    ∧ (∀ b ∈ [105, 102], isLetter b = true)
    ∧ (∀ c, [40, 120].head? = some c → isLetter c = false)
    ∧ (New ([10] ++ [105, 102] ++ [40, 120])).NextToken
      = some ({ Kind := LookupIdent [105, 102], Literal := [105, 102] },
          Lexer.atPos ([10] ++ [105, 102] ++ [40, 120]) 3) :=
  ⟨by decide, by decide, by decide, by simp [isLetter],
    (C7_identifiers_and_keywords [10] [105, 102] [40, 120] (by decide) (by decide)
      (by decide) (by simp [isLetter])).1⟩

/-- C8 at the byte 0xC8: the first `NextToken` on `New` of the input "\xc8a" returns the
`ILLEGAL` token whose literal is the two bytes 0xC3 0x88 (the UTF-8 encoding that the
conversion `string(l.ch)` gives), not the single byte 0xC8; the next call returns the
identifier "a". -/
theorem C8_illegal_literal_of_high_byte :
    (New [200, 97]).nextTokens 2
      = some ([{ Kind := ILLEGAL, Literal := [195, 136] }, { Kind := IDENT, Literal := [97] }],
          Lexer.atPos [200, 97] 2)
    ∧ ([195, 136] : List Nat) ≠ [200] := by
  decide

/-- An illegal byte is reported and skipped: for a byte `b` that is not whitespace, not 0,
not a single-byte token, not '=' or '!', and not a letter, underscore or digit, the first
call on `New (b :: rest)` returns the `ILLEGAL` token with literal `string(b)`, which is
the one byte `b` when `b` is below 0x80, and the calls after it return what the calls on
`New rest` return. -/
theorem illegal_byte_reported_and_skipped (b : Nat) (rest : List Nat)
    (hws : isWhitespace b = false) (hl : SingleByteLiteralToType.lookup b = none)
    (h61 : b ≠ 61) (h33 : b ≠ 33) (hL : isLetter b = false) (hD : isDigit b = false) :
    (New (b :: rest)).nthToken 0 = some { Kind := ILLEGAL, Literal := stringOfByte b }
    ∧ (b < 128 → stringOfByte b = [b])
    ∧ ∀ k, (New (b :: rest)).nthToken (k + 1) = (New rest).nthToken k := by
  have hs : scanToken (b :: rest) = (ILLEGAL.Token (stringOfByte b), 1) := by
    rw [scanToken_of_head b rest hws, scanHead_illegal b rest hl h61 h33 hL hD]
  refine ⟨?_, fun h => stringOfByte_ascii h, ?_⟩
  · rw [New_eq_atPos, nthToken_atPos, List.drop_zero]
    simp only [scanNth, hs]; rfl
  · intro k
    rw [New_eq_atPos, New_eq_atPos, nthToken_atPos, nthToken_atPos, List.drop_zero,
      List.drop_zero]
    simp only [scanNth, scanRest, hs, List.drop_succ_cons, List.drop_zero]

/-- C9. For all strings `s1` and `s2` without 0 bytes and every non-empty string `w` of
spaces, tabs, newlines and carriage returns, the tokens `New (s1 ++ w ++ s2)` returns
before its first `EOF` are the tokens `New s1` returns before its first `EOF` followed by
those `New s2` returns before its first `EOF`; in particular leading whitespace does not
change the token stream. -/
theorem C9_whitespace_only_separates (s1 w s2 : List Nat) (h1 : 0 ∉ s1) (_h2 : 0 ∉ s2)
    (hw : w ≠ []) (hws : ∀ c ∈ w, isWhitespace c = true) :
    (∃ a b, (New s1).tokensBeforeEOF = some a ∧ (New s2).tokensBeforeEOF = some b
      ∧ (New (s1 ++ w ++ s2)).tokensBeforeEOF = some (a ++ b))
    ∧ (New (w ++ s2)).tokensBeforeEOF = (New s2).tokensBeforeEOF := by
  have hlen : 1 ≤ w.length := List.length_pos.mpr hw
  obtain ⟨b, hb⟩ := scanBeforeEOF_total (s2.length + 1) s2 (by omega)
  constructor
  · obtain ⟨a, ha⟩ := scanBeforeEOF_total (s1.length + 1) s1 (by omega)
    refine ⟨a, b, ?_, ?_, ?_⟩
    · rw [tokensBeforeEOF_New, ha]
    · rw [tokensBeforeEOF_New, hb]
    · rw [tokensBeforeEOF_New]
      apply scanBeforeEOF_append (s1.length + 1) s1 a h1 ha w s2 b (s2.length + 1) _ hw hws hb
      simp only [List.length_append]
      omega
  · rw [tokensBeforeEOF_New, tokensBeforeEOF_New, hb]
    have := scanBeforeEOF_append 1 [] [] (by simp) (by decide) w s2 b (s2.length + 1)
      ((w ++ s2).length + 1) hw hws hb (by simp only [List.length_append]; omega)
    simpa using this

theorem C9_whitespace_only_separates_witness :
    0 ∉ [120, 61] ∧ 0 ∉ [61, 49] ∧ [32, 10] ≠ ([] : List Nat)
    ∧ (∀ c ∈ [32, 10], isWhitespace c = true)
    ∧ (New ([120, 61] ++ [32, 10] ++ [61, 49])).tokensBeforeEOF = (some
        ([{ Kind := IDENT, Literal := [120] }, { Kind := ASSIGN, Literal := [61] }]
          ++ [{ Kind := ASSIGN, Literal := [61] }, { Kind := INT, Literal := [49] }])) := by
  refine ⟨by decide, by decide, by decide, by decide, ?_⟩
  obtain ⟨a, b, ha, hb, hab⟩ :=
    (C9_whitespace_only_separates [120, 61] [32, 10] [61, 49] (by decide) (by decide)
      (by decide) (by decide)).1
  have ea : (New [120, 61]).tokensBeforeEOF
      = some [{ Kind := IDENT, Literal := [120] }, { Kind := ASSIGN, Literal := [61] }] := by
    decide
  have eb : (New [61, 49]).tokensBeforeEOF
      = some [{ Kind := ASSIGN, Literal := [61] }, { Kind := INT, Literal := [49] }] := by
    decide
  rw [ea] at ha
  rw [eb] at hb
  cases ha
  cases hb
  exact hab

/-- C10 as stated fails: the first call on the empty input returns the literal "\x00",
one byte, while the input has no byte to read. -/
theorem C10_literal_not_substring_counterexample :
    ¬ (∀ (input : List Nat) (k : Nat) (ts : List Token) (l lw l1 : Lexer) (t : Token),
        (New input).nextTokens k = some (ts, l) → l.skipWhitespace = some lw →
        l.NextToken = some (t, l1) →
        t.Literal = (input.drop lw.position).take (l1.position - lw.position)) := by
  intro h
  have := h [] 0 [] (New []) (New []) (Lexer.atPos [] 1) { Kind := EOF, Literal := [0] }
    (by decide) (by decide) (by decide)
  exact absurd this (by decide)

/-- C10, amended. Every call to `NextToken` on a lexer over an input returns; when, after
skipping whitespace, the cursor stands on a byte of the input that is below 0x80, the
literal of the returned token equals the substring of the input from that cursor position
up to (not including) the cursor position after the call, which lies inside the input;
when the cursor stands at or past the end of the input, the token is `EOF` with literal
"\x00" and the cursor moves one position on. -/
theorem C10_literal_is_source_substring (input : List Nat) (k : Nat) :
    ∃ (ts : List Token) (l lw l1 : Lexer) (t : Token),
      (New input).nextTokens k = some (ts, l) ∧ l.skipWhitespace = some lw
      ∧ l.NextToken = some (t, l1)
      ∧ (lw.position < input.length → lw.ch < 128 →
          l1.position ≤ input.length
          ∧ goSlice input lw.position l1.position = some t.Literal
          ∧ t.Literal = (input.drop lw.position).take (l1.position - lw.position))
      ∧ (input.length ≤ lw.position →
          t = { Kind := EOF, Literal := [0] } ∧ l1.position = lw.position + 1) := by
  refine ⟨scanList k (input.drop 0), Lexer.atPos input (scanPos input k 0), _, _, _, ?_,
    skipWhitespace_atPos input (scanPos input k 0),
    NextToken_atPos input (scanPos input k 0), ?_, ?_⟩
  · rw [New_eq_atPos]; exact nextTokens_atPos input k 0
  · generalize scanPos input k 0 = p
    unfold scanToken
    simp only [List.drop_drop]
    generalize ((input.drop p).takeWhile isWhitespace).length = n
    intro hlt hch
    simp only [Lexer.atPos] at hlt hch ⊢
    cases hd : input.drop (p + n) with
    | nil => rw [List.drop_eq_nil_iff] at hd; omega
    | cons c r =>
      have hc : input.getD (p + n) 0 = c := (drop_cons_getD hd).1
      rw [hc] at hch
      obtain ⟨h1, h2⟩ := scanHead_literal c r hch
      have hlen : (c :: r).length = input.length - (p + n) := by
        rw [← hd, List.length_drop]
      have hsub : (c :: r).take
          (p + (n + (scanHead (c :: r)).2) - (p + n)) = (scanHead (c :: r)).1.Literal := by
        rw [h2]; congr 1; omega
      refine ⟨by omega, ?_, hsub.symm⟩
      unfold goSlice
      rw [if_pos ⟨by omega, by omega⟩, hd, hsub]
  · generalize scanPos input k 0 = p
    unfold scanToken
    simp only [List.drop_drop]
    generalize ((input.drop p).takeWhile isWhitespace).length = n
    intro hle
    simp only [Lexer.atPos] at hle ⊢
    have hd : input.drop (p + n) = [] := by rw [List.drop_eq_nil_iff]; exact hle
    rw [hd, scanHead_nil]
    exact ⟨rfl, by omega⟩

theorem C10_literal_is_source_substring_witness :
    ∃ (ts : List Token) (l lw l1 : Lexer) (t : Token),
      (New [32, 97, 98]).nextTokens 0 = some (ts, l) ∧ l.skipWhitespace = some lw
      ∧ l.NextToken = some (t, l1) ∧ lw.position < [32, 97, 98].length ∧ lw.ch < 128
      ∧ t.Literal = ([32, 97, 98].drop lw.position).take (l1.position - lw.position) := by
  obtain ⟨ts, l, lw, l1, t, h1, h2, h3, ha, _⟩ :=
    C10_literal_is_source_substring [32, 97, 98] 0
  have e1 : l = New [32, 97, 98] := by
    simp only [Lexer.nextTokens, Option.some.injEq, Prod.mk.injEq] at h1
    exact h1.2.symm
  subst e1
  have e2 : lw = Lexer.atPos [32, 97, 98] 1 := by
    have e : (New [32, 97, 98]).skipWhitespace = some (Lexer.atPos [32, 97, 98] 1) := by
      decide
    rw [e] at h2
    exact (Option.some.inj h2).symm
  subst e2
  exact ⟨ts, _, _, l1, t, h1, h2, h3, by decide, by decide,
    (ha (by decide) (by decide)).2.2⟩

/-! ## Cursor invariant, and kinds against literals -/

theorem scanNth_is_scanHead : ∀ (k : Nat) (s : List Nat), ∃ r, scanNth k s = (scanHead r).1 := by
  intro k
  induction k with
  | zero => intro s; exact ⟨_, rfl⟩
  | succ n ih => intro s; exact ih (scanRest s)

theorem mem_takeWhile_pred (pred : Nat → Bool) (s : List Nat) :
    ∀ b ∈ s.takeWhile pred, pred b = true := by
  induction s with
  | nil => intro b hb; simp at hb
  | cons a t ih =>
    intro b hb
    by_cases ha : pred a = true
    · simp only [List.takeWhile_cons, ha, if_true, List.mem_cons] at hb
      rcases hb with h | h
      · rw [h]; exact ha
      · exact ih b h
    · simp [List.takeWhile_cons, ha] at hb

theorem takeWhile_cons_ne_nil (pred : Nat → Bool) (c : Nat) (r : List Nat)
    (h : pred c = true) : (c :: r).takeWhile pred ≠ [] := by
  simp [List.takeWhile_cons, h]

/-- C16. After `New input` and after every later call to `NextToken`, the lexer state has
`readPosition = position + 1`, `ch = input[position]` when `position < len(input)` and
`ch = 0` when `position >= len(input)`, and its `input` field is the input. -/
theorem C16_cursor_invariant (input : List Nat) (k : Nat) :
    ∃ (ts : List Token) (l : Lexer), (New input).nextTokens k = some (ts, l)
      ∧ l.input = input ∧ l.readPosition = l.position + 1
      ∧ (∀ h : l.position < input.length, l.ch = input.get ⟨l.position, h⟩)
      ∧ (input.length ≤ l.position → l.ch = 0) := by
  refine ⟨scanList k (input.drop 0), Lexer.atPos input (scanPos input k 0), ?_, rfl, rfl,
    ?_, ?_⟩
  · rw [New_eq_atPos]; exact nextTokens_atPos input k 0
  · intro h
    simp only [Lexer.atPos] at h ⊢
    simp [List.getD, List.getElem?_eq_getElem h]
  · intro h
    simp only [Lexer.atPos] at h ⊢
    simp [List.getD, List.getElem?_eq_none h]

theorem C16_cursor_invariant_witness :
    ∃ (ts : List Token) (l : Lexer), (New [97, 32]).nextTokens 1 = some (ts, l)
      ∧ l.readPosition = l.position + 1 ∧ l.position < [97, 32].length ∧ l.ch = 32 := by
  obtain ⟨ts, l, h, _, hrp, hlt, _⟩ := C16_cursor_invariant [97, 32] 1
  have e : (New [97, 32]).nextTokens 1
      = some ([{ Kind := IDENT, Literal := [97] }], Lexer.atPos [97, 32] 1) := by decide
  rw [e] at h
  simp only [Option.some.injEq, Prod.mk.injEq] at h
  obtain ⟨h1, h2⟩ := h
  subst h2
  exact ⟨ts, _, by rw [e, h1], hrp, by decide, hlt (by decide)⟩

theorem scanHead_kind_literal (r : List Nat) :
    ((scanHead r).1.Kind = INT → (scanHead r).1.Literal ≠ [] ∧ ∀ b ∈ (scanHead r).1.Literal, 48 ≤ b ∧ b ≤ 57)
    ∧ ((scanHead r).1.Kind = IDENT → (scanHead r).1.Literal ≠ []
        ∧ (∀ b ∈ (scanHead r).1.Literal, (97 ≤ b ∧ b ≤ 122) ∨ (65 ≤ b ∧ b ≤ 90) ∨ b = 95)
        ∧ (scanHead r).1.Literal ∉ [[102, 110], [108, 101, 116], [116, 114, 117, 101],
            [102, 97, 108, 115, 101], [105, 102], [101, 108, 115, 101],
            [114, 101, 116, 117, 114, 110]])
    ∧ ((scanHead r).1.Kind = FUNCTION → (scanHead r).1.Literal = [102, 110])
    ∧ ((scanHead r).1.Kind = LET → (scanHead r).1.Literal = [108, 101, 116])
    ∧ ((scanHead r).1.Kind = TRUE → (scanHead r).1.Literal = [116, 114, 117, 101])
    ∧ ((scanHead r).1.Kind = FALSE → (scanHead r).1.Literal = [102, 97, 108, 115, 101])
    ∧ ((scanHead r).1.Kind = IF → (scanHead r).1.Literal = [105, 102])
    ∧ ((scanHead r).1.Kind = ELSE → (scanHead r).1.Literal = [101, 108, 115, 101])
    ∧ ((scanHead r).1.Kind = RETURN → (scanHead r).1.Literal = [114, 101, 116, 117, 114, 110])
    ∧ ((scanHead r).1.Kind ∈ [ASSIGN, PLUS, MINUS, BANG, ASTERISK, SLASH, TokenType.LT, GT, EQ, NOT_EQ,
          COMMA, SEMICOLON, LPAREN, RPAREN, LBRACE, RBRACE] → (scanHead r).1.Literal = (scanHead r).1.Kind.str)
    ∧ ((scanHead r).1.Kind = EOF → (scanHead r).1.Literal = [0]) := by
  rcases scanHead_cases r with ⟨t, hl, hs⟩ | ⟨t, _, hs⟩ | ⟨t, _, _, hs⟩ | ⟨t, _, hs⟩
    | ⟨t, _, _, hs⟩ | ⟨c, t, hr, hc, hs⟩ | ⟨c, t, hr, hc, hs⟩ | ⟨c, t, _, _, _, _, _, _, hs⟩
  · rw [hs]
    rcases lookup_single_cases (r.getD 0 0) with
      h | h | h | h | h | h | h | h | h | h | h | h | h | h
    all_goals (rw [h.2] at hl)
    all_goals first
      | (cases hl; rw [h.1]; simp [TokenType.Token, stringOfByte, TokenType.str])
      | (simp at hl)
  · rw [hs]; simp [TokenType.Token, TokenType.str]
  · rw [hs]; simp [TokenType.Token, TokenType.str]
  · rw [hs]; simp [TokenType.Token, TokenType.str]
  · rw [hs]; simp [TokenType.Token, TokenType.str]
  · rw [hs, hr]
    have hne := takeWhile_cons_ne_nil isLetter c t hc
    have hall : ∀ b ∈ (c :: t).takeWhile isLetter,
        (97 ≤ b ∧ b ≤ 122) ∨ (65 ≤ b ∧ b ≤ 90) ∨ b = 95 :=
      fun b hb => (isLetter_iff b).mp (mem_takeWhile_pred isLetter (c :: t) b hb)
    generalize (c :: t).takeWhile isLetter = lit at hne hall
    rcases LookupIdent_cases lit with h | h | h | h | h | h | h | h
    all_goals simp only [TokenType.Token, h.2]
    all_goals first
      | (obtain ⟨h1, _⟩ := h; subst h1; simp)
      | (obtain ⟨⟨h1, h2, h3, h4, h5, h6, h7⟩, _⟩ := h
         simp [hne, h1, h2, h3, h4, h5, h6, h7]
         exact hall)
  · rw [hs, hr]
    have hne := takeWhile_cons_ne_nil isDigit c t hc
    have hall : ∀ b ∈ (c :: t).takeWhile isDigit, 48 ≤ b ∧ b ≤ 57 :=
      fun b hb => (isDigit_iff b).mp (mem_takeWhile_pred isDigit (c :: t) b hb)
    generalize (c :: t).takeWhile isDigit = lit at hne hall
    simp [TokenType.Token, hne]
    exact hall
  · rw [hs]
    simp [TokenType.Token]

/-- C19. For every input and every token returned by `NextToken`: if the kind is `INT`
the literal is a non-empty string of ASCII digits; if the kind is `IDENT` the literal is a
non-empty string of ASCII letters and underscores that is not one of the seven keywords;
if the kind is a keyword kind the literal is that keyword's spelling; if the kind is an
operator or delimiter kind the literal is the kind's own string; and if the kind is `EOF`
the literal is "\x00". -/
theorem C19_kind_and_literal_agree (input : List Nat) (k : Nat) :
    ∃ t : Token, (New input).nthToken k = some t ∧
    (t.Kind = INT → t.Literal ≠ [] ∧ ∀ b ∈ t.Literal, 48 ≤ b ∧ b ≤ 57)
      ∧ (t.Kind = IDENT → t.Literal ≠ []
          ∧ (∀ b ∈ t.Literal, (97 ≤ b ∧ b ≤ 122) ∨ (65 ≤ b ∧ b ≤ 90) ∨ b = 95)
          ∧ t.Literal ∉ [[102, 110], [108, 101, 116], [116, 114, 117, 101],
              [102, 97, 108, 115, 101], [105, 102], [101, 108, 115, 101],
              [114, 101, 116, 117, 114, 110]])
      ∧ (t.Kind = FUNCTION → t.Literal = [102, 110])
      ∧ (t.Kind = LET → t.Literal = [108, 101, 116])
      ∧ (t.Kind = TRUE → t.Literal = [116, 114, 117, 101])
      ∧ (t.Kind = FALSE → t.Literal = [102, 97, 108, 115, 101])
      ∧ (t.Kind = IF → t.Literal = [105, 102])
      ∧ (t.Kind = ELSE → t.Literal = [101, 108, 115, 101])
      ∧ (t.Kind = RETURN → t.Literal = [114, 101, 116, 117, 114, 110])
      ∧ (t.Kind ∈ [ASSIGN, PLUS, MINUS, BANG, ASTERISK, SLASH, TokenType.LT, GT, EQ, NOT_EQ,
            COMMA, SEMICOLON, LPAREN, RPAREN, LBRACE, RBRACE] → t.Literal = t.Kind.str)
      ∧ (t.Kind = EOF → t.Literal = [0]) := by
  obtain ⟨r, hr⟩ := scanNth_is_scanHead k input
  refine ⟨scanNth k input, ?_, ?_⟩
  · rw [New_eq_atPos, nthToken_atPos, List.drop_zero]
  · rw [hr]; exact scanHead_kind_literal r

theorem C19_kind_and_literal_agree_witness :
    (New [102, 110, 32, 55]).nthToken 1 = some { Kind := INT, Literal := [55] }
    ∧ ([55] : List Nat) ≠ [] ∧ ∀ b ∈ [55], 48 ≤ b ∧ b ≤ 57 := by
  obtain ⟨t, ht, hint, _⟩ := C19_kind_and_literal_agree [102, 110, 32, 55] 1
  have e : (New [102, 110, 32, 55]).nthToken 1 = some { Kind := INT, Literal := [55] } := by
    decide
  rw [e] at ht
  cases ht
  exact ⟨e, hint rfl⟩

/-! ## Literals against the input -/

theorem scanHead_literal_no_whitespace (c : Nat) (r : List Nat)
    (hc : isWhitespace c = false) (h128 : c < 128) :
    ∀ b ∈ (scanHead (c :: r)).1.Literal, isWhitespace b = false := by
  rcases scanHead_cases (c :: r) with ⟨t, _, hs⟩ | ⟨t, _, hs⟩ | ⟨t, _, _, hs⟩ | ⟨t, _, hs⟩
    | ⟨t, _, _, hs⟩ | ⟨d, t, _, _, hs⟩ | ⟨d, t, _, _, hs⟩ | ⟨d, t, hr, _, _, _, _, _, hs⟩
  · rw [hs]
    simp only [List.getD_cons_zero, stringOfByte_ascii h128, TokenType.Token,
      List.mem_singleton]
    intro b hb; rw [hb]; exact hc
  · rw [hs]; decide
  · rw [hs]; decide
  · rw [hs]; decide
  · rw [hs]; decide
  · rw [hs]
    intro b hb
    exact not_isWhitespace_of_isLetter (mem_takeWhile_pred isLetter (c :: r) b hb)
  · rw [hs]
    intro b hb
    exact not_isWhitespace_of_isDigit (mem_takeWhile_pred isDigit (c :: r) b hb)
  · rw [hs]
    have hd : d = c := (List.cons.inj hr).1.symm
    subst hd
    simp only [stringOfByte_ascii h128, TokenType.Token, List.mem_singleton]
    intro b hb; rw [hb]; exact hc

theorem filter_not_whitespace_of_all (ws : List Nat)
    (hws : ∀ b ∈ ws, isWhitespace b = true) :
    ws.filter (fun b => !isWhitespace b) = [] := by
  rw [List.filter_eq_nil_iff]
  intro b hb
  simp [hws b hb]

theorem filter_not_whitespace_of_none (lit : List Nat)
    (h : ∀ b ∈ lit, isWhitespace b = false) :
    lit.filter (fun b => !isWhitespace b) = lit := by
  rw [List.filter_eq_self]
  intro b hb
  simp [h b hb]

/-- The literals of the tokens before the end of input, put together, are the unread input
without its whitespace, when every byte is in the range 0x01..0x7F. -/
theorem scanBeforeEOF_literals : ∀ (f : Nat) (s : List Nat) (ts : List Token),
    (∀ b ∈ s, 1 ≤ b ∧ b ≤ 127) → scanBeforeEOF f s = some ts →
    (ts.map Token.Literal).flatten = s.filter (fun b => !isWhitespace b) := by
  intro f
  induction f with
  | zero => intro s ts _ h; simp [scanBeforeEOF] at h
  | succ n ih =>
    intro s ts hs h
    have h0 : 0 ∉ s := fun hm => absurd (hs 0 hm).1 (by decide)
    simp only [scanBeforeEOF] at h
    by_cases he : (scanToken s).1.Kind = EOF
    · simp only [he, if_true, Option.some.injEq] at h
      subst h
      rw [filter_not_whitespace_of_all s (all_whitespace_of_eof h0 he)]
      rfl
    · simp only [he, if_false] at h
      cases hr : scanBeforeEOF n (scanRest s) with
      | none => rw [hr] at h; simp at h
      | some us =>
        rw [hr] at h
        simp only [Option.some.injEq] at h
        subst h
        have hrest : ∀ b ∈ scanRest s, 1 ≤ b ∧ b ≤ 127 :=
          fun b hb => hs b (List.mem_of_mem_drop hb)
        have hrec := ih (scanRest s) us hrest hr
        simp only [List.map_cons, List.flatten_cons, hrec]
        obtain ⟨ws, r, hsplit, hws, hcase⟩ := split_leading_whitespace s
        subst hsplit
        rcases hcase with hnil | ⟨c, t, hct, hc⟩
        · subst hnil
          exfalso
          apply he
          rw [List.append_nil, scanToken_all_whitespace ws hws]
          rfl
        · subst hct
          have h128 : c < 128 := by
            have := (hs c (List.mem_append_right ws (List.mem_cons_self c t))).2
            omega
          obtain ⟨hlen, hlit⟩ := scanHead_literal c t h128
          have hnows := scanHead_literal_no_whitespace c t hc h128
          have hrest2 : scanRest (ws ++ c :: t) = (c :: t).drop (scanHead (c :: t)).2 := by
            unfold scanRest
            rw [scanToken_skip ws c t hws hc]
            simp only [List.drop_append]
          rw [hrest2, scanToken_skip ws c t hws hc, List.filter_append,
            filter_not_whitespace_of_all ws hws, List.nil_append]
          conv_rhs => rw [← List.take_append_drop (scanHead (c :: t)).2 (c :: t)]
          rw [List.filter_append, ← hlit, filter_not_whitespace_of_none _ hnows]

/-- C18. For every input whose bytes all lie in the range 0x01..0x7F, the literals of the
tokens that `New input` returns before its first `EOF` token, concatenated in order, are
the input with every space, tab, newline and carriage-return byte removed. -/
theorem C18_lexing_loses_only_whitespace (input : List Nat)
    (h : ∀ b ∈ input, 1 ≤ b ∧ b ≤ 127) :
    ∃ ts : List Token, (New input).tokensBeforeEOF = some ts
      ∧ (ts.map Token.Literal).flatten
          = input.filter (fun b => !(b == 32 || b == 9 || b == 10 || b == 13)) := by
  obtain ⟨ts, hts⟩ := scanBeforeEOF_total (input.length + 1) input (by omega)
  refine ⟨ts, ?_, scanBeforeEOF_literals _ input ts h hts⟩
  rw [tokensBeforeEOF_New, hts]

theorem C18_lexing_loses_only_whitespace_witness :
    (∀ b ∈ [120, 32, 61, 61, 10, 49, 64], 1 ≤ b ∧ b ≤ 127)
    ∧ ∃ ts : List Token, (New [120, 32, 61, 61, 10, 49, 64]).tokensBeforeEOF = some ts
      ∧ (ts.map Token.Literal).flatten = [120, 61, 61, 49, 64] :=
  ⟨by decide, C18_lexing_loses_only_whitespace [120, 32, 61, 61, 10, 49, 64] (by decide)⟩

/-! ## Index and slice bounds -/

theorem readCharAccesses_inBounds (l : Lexer) :
    ∀ a ∈ l.readCharAccesses, a.inBounds ∧ a.len = l.input.length := by
  intro a ha
  unfold Lexer.readCharAccesses at ha
  by_cases h : l.readPosition ≥ l.input.length
  · simp [h] at ha
  · simp only [h, if_false, List.mem_singleton] at ha
    subst ha
    exact ⟨Nat.lt_of_not_le h, rfl⟩

theorem peekCharAccesses_inBounds (l : Lexer) :
    ∀ a ∈ l.peekCharAccesses, a.inBounds ∧ a.len = l.input.length :=
  readCharAccesses_inBounds l

theorem readWhileLoopAccesses_inBounds (pred : Nat → Bool) :
    ∀ (fuel : Nat) (l : Lexer), ∀ a ∈ Lexer.readWhileLoopAccesses pred fuel l,
      a.inBounds ∧ a.len = l.input.length := by
  intro fuel
  induction fuel with
  | zero => intro l a ha; simp [Lexer.readWhileLoopAccesses] at ha
  | succ n ih =>
    intro l a ha
    unfold Lexer.readWhileLoopAccesses at ha
    by_cases hp : pred l.ch = true
    · simp only [hp, if_true, List.mem_append] at ha
      rcases ha with h | h
      · exact readCharAccesses_inBounds l a h
      · exact ih l.readChar a h
    · simp [hp] at ha

/-- The slice of `readWhile` is not empty and lies inside the input, when the call is made
on a reached state whose current byte satisfies the predicate. -/
theorem readWhileAccesses_inBounds (pred : Nat → Bool) (h0 : pred 0 = false)
    (input : List Nat) (q : Nat) (hq : pred (input.getD q 0) = true) :
    ∀ a ∈ (Lexer.atPos input q).readWhileAccesses pred,
      a.inBounds ∧ a.len = input.length := by
  intro a ha
  have hlt : q < input.length := by
    apply lt_length_of_getD_ne_zero
    intro h; rw [h, h0] at hq; exact absurd hq (by decide)
  have hlen := length_takeWhile_drop_le pred input q
  have hfuel : ((input.drop q).takeWhile pred).length < (Lexer.atPos input q).fuel := by
    simp only [Lexer.fuel, Lexer.atPos]; omega
  unfold Lexer.readWhileAccesses at ha
  rw [readWhileLoop_atPos pred h0 input _ q hfuel] at ha
  simp only [List.mem_append, List.mem_singleton] at ha
  rcases ha with h | h
  · exact readWhileLoopAccesses_inBounds pred _ _ a h
  · subst h
    have hpos : 1 ≤ ((input.drop q).takeWhile pred).length := by
      cases hd : input.drop q with
      | nil => rw [List.drop_eq_nil_iff] at hd; omega
      | cons c r =>
        have hc := (drop_cons_getD hd).1
        rw [hc] at hq
        exact takeWhile_cons_length_pos pred c r hq
    simp only [Lexer.atPos, Access.inBounds, Access.len]
    exact ⟨⟨by omega, by omega⟩, trivial⟩

theorem NextTokenAccesses_inBounds (input : List Nat) (p : Nat) :
    ∀ a ∈ (Lexer.atPos input p).NextTokenAccesses, a.inBounds ∧ a.len = input.length := by
  intro a ha
  unfold Lexer.NextTokenAccesses at ha
  rw [skipWhitespace_atPos] at ha
  simp only [List.mem_append] at ha
  rcases ha with h | h
  · exact readWhileLoopAccesses_inBounds isWhitespace _ _ a h
  · generalize p + ((input.drop p).takeWhile isWhitespace).length = q at h
    have hch : (Lexer.atPos input q).ch = input.getD q 0 := rfl
    cases hl : SingleByteLiteralToType.lookup (Lexer.atPos input q).ch with
    | some t =>
      rw [hl] at h
      exact readCharAccesses_inBounds _ a h
    | none =>
      rw [hl] at h
      simp only at h
      split_ifs at h with h1 h2 h3 h4 h5 h6
      · simp only [List.mem_append] at h
        rcases h with h | h | h
        · exact peekCharAccesses_inBounds _ a h
        · exact readCharAccesses_inBounds _ a h
        · exact readCharAccesses_inBounds _ a h
      · simp only [List.mem_append] at h
        rcases h with h | h
        · exact peekCharAccesses_inBounds _ a h
        · exact readCharAccesses_inBounds _ a h
      · simp only [List.mem_append] at h
        rcases h with h | h | h
        · exact peekCharAccesses_inBounds _ a h
        · exact readCharAccesses_inBounds _ a h
        · exact readCharAccesses_inBounds _ a h
      · simp only [List.mem_append] at h
        rcases h with h | h
        · exact peekCharAccesses_inBounds _ a h
        · exact readCharAccesses_inBounds _ a h
      · exact readWhileAccesses_inBounds isLetter rfl input q (hch ▸ h5) a h
      · exact readWhileAccesses_inBounds isDigit rfl input q (hch ▸ h6) a h
      · exact readCharAccesses_inBounds _ a h

theorem accessesOfCalls_inBounds (input : List Nat) :
    ∀ (k p : Nat), ∀ a ∈ (Lexer.atPos input p).accessesOfCalls k,
      a.inBounds ∧ a.len = input.length := by
  intro k
  induction k with
  | zero => intro p a ha; simp [Lexer.accessesOfCalls] at ha
  | succ n ih =>
    intro p a ha
    simp only [Lexer.accessesOfCalls, NextToken_atPos, List.mem_append] at ha
    rcases ha with h | h
    · exact NextTokenAccesses_inBounds input p a h
    · exact ih _ a h

/-- C20. For every input and every number `k` of successive calls of `NextToken` on
`New input`, also past the end of the input, all the calls return; each index expression
`input[readPosition]` evaluated by `readChar` and `peekChar` (in `New` and in the calls)
has `readPosition < len(input)`, and each slice expression `input[start:end]` evaluated
by `readWhile` has `start < end <= len(input)`. -/
theorem C20_no_access_out_of_range (input : List Nat) (k : Nat) :
    (∃ r, (New input).nextTokens k = some r)
    ∧ (∀ i len, Access.index i len ∈ NewAccesses input ++ (New input).accessesOfCalls k →
        i < len ∧ len = input.length)
    ∧ (∀ lo hi len,
        Access.slice lo hi len ∈ NewAccesses input ++ (New input).accessesOfCalls k →
        lo < hi ∧ hi ≤ len ∧ len = input.length) := by
  have hall : ∀ a ∈ NewAccesses input ++ (New input).accessesOfCalls k,
      a.inBounds ∧ a.len = input.length := by
    intro a ha
    rcases List.mem_append.mp ha with h | h
    · exact readCharAccesses_inBounds _ a h
    · rw [New_eq_atPos] at h
      exact accessesOfCalls_inBounds input k 0 a h
  refine ⟨⟨_, by rw [New_eq_atPos]; exact nextTokens_atPos input k 0⟩, ?_, ?_⟩
  · intro i len h
    exact hall _ h
  · intro lo hi len h
    obtain ⟨⟨h1, h2⟩, h3⟩ := hall _ h
    exact ⟨h1, h2, h3⟩

theorem C20_no_access_out_of_range_witness :
    Access.slice 1 4 4 ∈ NewAccesses [32, 108, 101, 116]
        ++ (New [32, 108, 101, 116]).accessesOfCalls 2
    ∧ (1 < 4 ∧ 4 ≤ 4 ∧ 4 = [32, 108, 101, 116].length) :=
  ⟨by decide, (C20_no_access_out_of_range [32, 108, 101, 116] 2).2.2 1 4 4 (by decide)⟩

/-! ## Rendering of the syntax tree -/

theorem Expression_Strings_eq_map (args : List Expression) :
    Expression.Strings args = args.map Expression.String := by
  induction args with
  | nil => rfl
  | cons a rest ih => simp [Expression.Strings, ih]

theorem Statement_writeAll_eq_flatten (stmts : List Statement) :
    Statement.writeAll stmts = (stmts.map Statement.String).flatten := by
  induction stmts with
  | nil => rfl
  | cons a rest ih => simp [Statement.writeAll, ih]

theorem Statement_writeAll_append (p q : List Statement) :
    Statement.writeAll (p ++ q) = Statement.writeAll p ++ Statement.writeAll q := by
  simp [Statement_writeAll_eq_flatten]

theorem stringsJoin_eq_intercalate (xs : List (List Nat)) (sep : List Nat) :
    stringsJoin xs sep = sep.intercalate xs := by
  induction xs with
  | nil => rfl
  | cons a rest ih =>
    cases rest with
    | nil => simp [stringsJoin, List.intercalate]
    | cons b more =>
      simp only [stringsJoin, ih]
      simp [List.intercalate, List.intersperse]

theorem bytes_lparen : bytes "(" = [40] := by decide

theorem bytes_rparen : bytes ")" = [41] := by decide

theorem bytes_space : bytes " " = [32] := by decide

theorem bytes_semicolon : bytes ";" = [59] := by decide

theorem bytes_assign : bytes " = " = [32, 61, 32] := by decide

theorem bytes_comma_space : bytes ", " = [44, 32] := by decide

theorem bytes_if : bytes "if" = [105, 102] := by decide

theorem bytes_else_space : bytes "else " = [101, 108, 115, 101, 32] := by decide

/-- C11. For every `InfixExpression` with left `L`, operator `op` and right `R`,
`String()` is "(" + L.String() + " " + op + " " + R.String() + ")", and for every
`PrefixExpression` with operator `op` and operand `R`, `String()` is
"(" + op + R.String() + ")"; the tree a + (b * c) renders as "(a + (b * c))", the tree
(a + b) + c as "((a + b) + c)" and the tree (-a) * b as "((-a) * b)". -/
theorem C11_infix_and_prefix_rendering (tok : Token) (L R : Expression) (op : List Nat) :
    (Expression.InfixExpression tok L op R).String
      = bytes "(" ++ L.String ++ bytes " " ++ op ++ bytes " " ++ R.String ++ bytes ")"
    ∧ (Expression.PrefixExpression tok op R).String
        = bytes "(" ++ op ++ R.String ++ bytes ")"
    ∧ (infixNode PLUS (.Identifier (identNode "a")) "+"
        (infixNode ASTERISK (.Identifier (identNode "b")) "*"
          (.Identifier (identNode "c")))).String = bytes "(a + (b * c))"
    ∧ (infixNode PLUS
        (infixNode PLUS (.Identifier (identNode "a")) "+" (.Identifier (identNode "b")))
        "+" (.Identifier (identNode "c"))).String = bytes "((a + b) + c)"
    ∧ (infixNode ASTERISK (prefixNode MINUS "-" (.Identifier (identNode "a"))) "*"
        (.Identifier (identNode "b"))).String = bytes "((-a) * b)" := by
  refine ⟨?_, ?_, by decide, by decide, by decide⟩
  · simp [Expression.String, bytes_lparen, bytes_rparen, bytes_space]
  · simp [Expression.String, bytes_lparen, bytes_rparen]

/-- C12. For every `Program`, `String()` is the concatenation of the `String()` of its
statements in order with no separator; the empty `Program` renders as ""; the rendering
of the statements `p` followed by `q` is the rendering of `p` followed by the rendering
of `q`; `BlockStatement.String()` obeys the same rule. -/
theorem C12_program_rendering_concatenates (p q : List Statement) (tok : Token) :
    (Program.mk p).String = (p.map Statement.String).flatten
    ∧ (Program.mk []).String = []
    ∧ (Program.mk (p ++ q)).String = (Program.mk p).String ++ (Program.mk q).String
    ∧ (BlockStatement.mk tok p).String = (p.map Statement.String).flatten
    ∧ (BlockStatement.mk tok []).String = []
    ∧ (BlockStatement.mk tok (p ++ q)).String
        = (BlockStatement.mk tok p).String ++ (BlockStatement.mk tok q).String := by
  refine ⟨Statement_writeAll_eq_flatten p, rfl, Statement_writeAll_append p q, ?_, ?_, ?_⟩
  · simp [BlockStatement.String, Statement_writeAll_eq_flatten]
  · simp [BlockStatement.String, Statement.writeAll]
  · simp [BlockStatement.String, Statement_writeAll_append]

/-- C13. For every `LetStatement` with token literal `t`, name `n` and value `v`,
`String()` is t + " " + n.String() + " = " + v.String() + ";", and for every
`ReturnStatement` with token literal `t` and value `v`, `String()` is
t + " " + v.String() + ";"; the program [let myVar = anotherVar, return myVar] renders as
"let myVar = anotherVar;return myVar;". -/
theorem C13_let_and_return_rendering (tok : Token) (n : Identifier) (v : Expression) :
    (Statement.LetStatement tok n (some v)).String
      = tok.Literal ++ bytes " " ++ n.String ++ bytes " = " ++ v.String ++ bytes ";"
    ∧ (Statement.ReturnStatement tok (some v)).String
        = tok.Literal ++ bytes " " ++ v.String ++ bytes ";"
    ∧ (Program.mk
        [.LetStatement (LET.Token (bytes "let")) (identNode "myVar")
            (some (.Identifier (identNode "anotherVar"))),
         .ReturnStatement (RETURN.Token (bytes "return"))
            (some (.Identifier (identNode "myVar")))]).String
        = bytes "let myVar = anotherVar;return myVar;" := by
  refine ⟨?_, ?_, by decide⟩
  · simp [Statement.String, Token.TokenLiteral, bytes_space, bytes_assign, bytes_semicolon]
  · simp [Statement.String, Token.TokenLiteral, bytes_space, bytes_semicolon]

/-- A `LetStatement` or `ReturnStatement` whose value is `nil` renders without it. -/
theorem let_and_return_without_value (tok : Token) (n : Identifier) :
    (Statement.LetStatement tok n none).String
      = tok.Literal ++ bytes " " ++ n.String ++ bytes " = " ++ bytes ";"
    ∧ (Statement.ReturnStatement tok none).String = tok.Literal ++ bytes " " ++ bytes ";" := by
  constructor <;>
    simp [Statement.String, Token.TokenLiteral, bytes_space, bytes_assign, bytes_semicolon]

/-- C14. For every `CallExpression` with callee `f` and arguments `a1..an` (`n ≥ 0`),
`String()` is f.String() + "(" + the argument renderings joined by ", " + ")", which is
f.String() + "()" when there are no arguments; the call tree
add(a, b, 1, 2 * 3, 4 + 5, add(6, 7 * 8)) renders as
"add(a, b, 1, (2 * 3), (4 + 5), add(6, (7 * 8)))". -/
theorem C14_call_rendering (tok : Token) (f : Expression) (args : List Expression) :
    (Expression.CallExpression tok f args).String
      = f.String ++ bytes "(" ++ List.intercalate (bytes ", ") (args.map Expression.String)
          ++ bytes ")"
    ∧ (Expression.CallExpression tok f []).String = f.String ++ bytes "()"
    ∧ (callNode (.Identifier (identNode "add"))
        [.Identifier (identNode "a"), .Identifier (identNode "b"), intNode "1" 1,
         infixNode ASTERISK (intNode "2" 2) "*" (intNode "3" 3),
         infixNode PLUS (intNode "4" 4) "+" (intNode "5" 5),
         callNode (.Identifier (identNode "add"))
           [intNode "6" 6, infixNode ASTERISK (intNode "7" 7) "*" (intNode "8" 8)]]).String
        = bytes "add(a, b, 1, (2 * 3), (4 + 5), add(6, (7 * 8)))" := by
  refine ⟨?_, ?_, by decide⟩
  · simp only [Expression.String, Expression_Strings_eq_map, stringsJoin_eq_intercalate,
      bytes_lparen, bytes_rparen, bytes_comma_space]
  · have e : bytes "()" = [40, 41] := by decide
    simp [Expression.String, Expression.Strings, stringsJoin, e]

/-- C15. For every statement or expression node, `TokenLiteral()` is the `Literal` field
of the token stored in that node, and for every `Program`, `TokenLiteral()` is the
`TokenLiteral()` of its first statement when it has at least one statement and "" when it
has none. -/
theorem C15_token_literal (tok : Token) (i : Identifier) (il : IntegerLiteral) (b : Boolean)
    (params : List Identifier) (body : BlockStatement) (oalt : Option BlockStatement)
    (op : List Nat) (e1 e2 : Expression) (oe : Option Expression) (args : List Expression)
    (s : Statement) (stmts : List Statement) :
    ((Expression.Identifier i).TokenLiteral = i.tok.Literal
      ∧ (Expression.IntegerLiteral il).TokenLiteral = il.tok.Literal
      ∧ (Expression.FunctionLiteral tok params body).TokenLiteral = tok.Literal
      ∧ (Expression.Boolean b).TokenLiteral = b.tok.Literal
      ∧ (Expression.PrefixExpression tok op e1).TokenLiteral = tok.Literal
      ∧ (Expression.InfixExpression tok e1 op e2).TokenLiteral = tok.Literal
      ∧ (Expression.IfExpression tok e1 body oalt).TokenLiteral = tok.Literal
      ∧ (Expression.CallExpression tok e1 args).TokenLiteral = tok.Literal)
    ∧ ((Statement.ExpressionStatement tok oe).TokenLiteral = tok.Literal
      ∧ (Statement.LetStatement tok i oe).TokenLiteral = tok.Literal
      ∧ (Statement.BlockStatement (.mk tok stmts)).TokenLiteral = tok.Literal
      ∧ (Statement.ReturnStatement tok oe).TokenLiteral = tok.Literal)
    ∧ (Program.mk (s :: stmts)).TokenLiteral = s.TokenLiteral
    ∧ (Program.mk []).TokenLiteral = [] := by
  refine ⟨⟨rfl, rfl, rfl, rfl, rfl, rfl, rfl, rfl⟩, ⟨rfl, rfl, rfl, rfl⟩, ?_, rfl⟩
  simp [Program.TokenLiteral]

/-- C17. For every `IfExpression` with condition `c` and consequence `b`, `String()` is
"if" + c.String() + " " + b.String() when the alternative is absent, and that text
followed by "else " + a.String() when the alternative `a` is present; the tree of
if (x < y) { x } else { y } renders as "if(x < y) xelse y". -/
theorem C17_if_rendering (tok : Token) (c : Expression) (b a : BlockStatement) :
    (Expression.IfExpression tok c b none).String
      = bytes "if" ++ c.String ++ bytes " " ++ b.String
    ∧ (Expression.IfExpression tok c b (some a)).String
        = (bytes "if" ++ c.String ++ bytes " " ++ b.String) ++ (bytes "else " ++ a.String)
    ∧ (Expression.IfExpression (IF.Token (bytes "if"))
        (infixNode TokenType.LT (.Identifier (identNode "x")) "<" (.Identifier (identNode "y")))
        (blockOfIdent "x") (some (blockOfIdent "y"))).String = bytes "if(x < y) xelse y" := by
  refine ⟨?_, ?_, by decide⟩
  · simp [Expression.String, bytes_if, bytes_space]
  · simp [Expression.String, bytes_if, bytes_space, bytes_else_space]

/-! ## Balanced parentheses -/

theorem not_mem_of_noParen {s : List Nat} (h : noParen s = true) : 40 ∉ s ∧ 41 ∉ s := by
  unfold noParen at h
  rw [List.all_eq_true] at h
  constructor
  · intro hm; have := h 40 hm; simp at this
  · intro hm; have := h 41 hm; simp at this

theorem balanced_of_noParen {s : List Nat} (h : noParen s = true) :
    s.count 40 = s.count 41 ∧ ∀ n, (s.take n).count 41 ≤ (s.take n).count 40 := by
  obtain ⟨h40, h41⟩ := not_mem_of_noParen h
  constructor
  · rw [List.count_eq_zero.mpr h40, List.count_eq_zero.mpr h41]
  · intro n
    have : 41 ∉ s.take n := fun hm => h41 (List.mem_of_mem_take hm)
    rw [List.count_eq_zero.mpr this]
    exact Nat.zero_le _

theorem balanced_append {a b : List Nat}
    (ha : a.count 40 = a.count 41 ∧ ∀ n, (a.take n).count 41 ≤ (a.take n).count 40)
    (hb : b.count 40 = b.count 41 ∧ ∀ n, (b.take n).count 41 ≤ (b.take n).count 40) :
    (a ++ b).count 40 = (a ++ b).count 41
      ∧ ∀ n, ((a ++ b).take n).count 41 ≤ ((a ++ b).take n).count 40 := by
  constructor
  · rw [List.count_append, List.count_append, ha.1, hb.1]
  · intro n
    rw [List.take_append_eq_append_take, List.count_append, List.count_append]
    by_cases hn : n ≤ a.length
    · have h0 : n - a.length = 0 := by omega
      rw [h0, List.take_zero]
      have := ha.2 n
      simp only [List.count_nil]
      omega
    · rw [List.take_of_length_le (by omega : a.length ≤ n)]
      have h1 := ha.1
      have h2 := hb.2 (n - a.length)
      omega

theorem balanced_wrap {s : List Nat}
    (hs : s.count 40 = s.count 41 ∧ ∀ n, (s.take n).count 41 ≤ (s.take n).count 40) :
    ([40] ++ s ++ [41]).count 40 = ([40] ++ s ++ [41]).count 41
      ∧ ∀ n, (([40] ++ s ++ [41]).take n).count 41
          ≤ (([40] ++ s ++ [41]).take n).count 40 := by
  constructor
  · simp only [List.count_append, List.count_singleton, hs.1]
    simp
    omega
  · intro n
    cases n with
    | zero => simp
    | succ m =>
      have h1 := hs.2 m
      have h2 : ((List.take (m - s.length) [41]).count 41) ≤ 1 := by
        have := List.count_le_length 41 (List.take (m - s.length) [41])
        have hl : (List.take (m - s.length) [41]).length ≤ 1 := by
          rw [List.length_take, List.length_singleton]
          exact Nat.min_le_right _ _
        omega
      simp only [List.singleton_append, List.cons_append, List.take_succ_cons,
        List.take_append_eq_append_take, List.count_cons, List.count_append]
      simp
      omega

theorem balanced_stringsJoin (sep : List Nat) (hsep : noParen sep = true) :
    ∀ xs : List (List Nat),
      (∀ x ∈ xs, x.count 40 = x.count 41 ∧ ∀ n, (x.take n).count 41 ≤ (x.take n).count 40) →
      (stringsJoin xs sep).count 40 = (stringsJoin xs sep).count 41
        ∧ ∀ n, ((stringsJoin xs sep).take n).count 41
            ≤ ((stringsJoin xs sep).take n).count 40 := by
  intro xs
  induction xs with
  | nil => intro _; exact balanced_of_noParen (s := []) rfl
  | cons a rest ih =>
    intro h
    cases rest with
    | nil => exact h a (List.mem_cons_self a [])
    | cons b more =>
      simp only [stringsJoin]
      exact balanced_append
        (balanced_append (h a (List.mem_cons_self a _)) (balanced_of_noParen hsep))
        (ih (fun x hx => h x (List.mem_cons_of_mem a hx)))

mutual
/-- The rendering of a tree of the class `Expression.parenFree` has as many '(' as ')',
and none of its prefixes has more ')' than '('. -/
theorem parenFree_balanced : ∀ e : Expression, e.parenFree = true →
    e.String.count 40 = e.String.count 41
      ∧ ∀ n, (e.String.take n).count 41 ≤ (e.String.take n).count 40
  | .Identifier i, h => by
    simp only [Expression.parenFree] at h
    simp only [Expression.String]
    exact balanced_of_noParen h
  | .IntegerLiteral il, h => by
    simp only [Expression.parenFree] at h
    simp only [Expression.String]
    exact balanced_of_noParen h
  | .FunctionLiteral _ _ _, h => by simp [Expression.parenFree] at h
  | .Boolean b, h => by
    simp only [Expression.parenFree] at h
    simp only [Expression.String]
    exact balanced_of_noParen h
  | .PrefixExpression _ op right, h => by
    simp only [Expression.parenFree, Bool.and_eq_true] at h
    have hr := parenFree_balanced right h.2
    have hin := balanced_append (balanced_of_noParen h.1) hr
    have hw := balanced_wrap hin
    simp only [Expression.String]
    simpa only [List.append_assoc] using hw
  | .InfixExpression _ left op right, h => by
    simp only [Expression.parenFree, Bool.and_eq_true] at h
    have hl := parenFree_balanced left h.1.2
    have hr := parenFree_balanced right h.2
    have hsp : noParen [32] = true := by decide
    have hop := balanced_append (balanced_append (balanced_of_noParen hsp)
      (balanced_of_noParen h.1.1)) (balanced_of_noParen hsp)
    have hw := balanced_wrap (balanced_append (balanced_append hl hop) hr)
    simp only [Expression.String]
    simpa only [List.append_assoc] using hw
  | .IfExpression _ _ _ _, h => by simp [Expression.parenFree] at h
  | .CallExpression _ f args, h => by
    simp only [Expression.parenFree, Bool.and_eq_true] at h
    have hf := parenFree_balanced f h.1
    have hargs := parenFreeAll_balanced args h.2
    have hj := balanced_stringsJoin [44, 32] (by decide) (Expression.Strings args) hargs
    have hw := balanced_append hf (balanced_wrap hj)
    simp only [Expression.String]
    simpa only [List.append_assoc] using hw
/-- The renderings of the arguments of a call of the class are balanced. -/
theorem parenFreeAll_balanced : ∀ args : List Expression,
    Expression.parenFreeAll args = true →
    ∀ x ∈ Expression.Strings args,
      x.count 40 = x.count 41 ∧ ∀ n, (x.take n).count 41 ≤ (x.take n).count 40
  | [], _ => by
    intro x hx
    simp [Expression.Strings] at hx
  | a :: rest, h => by
    simp only [Expression.parenFreeAll, Bool.and_eq_true] at h
    intro x hx
    simp only [Expression.Strings, List.mem_cons] at hx
    rcases hx with hx | hx
    · rw [hx]; exact parenFree_balanced a h.1
    · exact parenFreeAll_balanced rest h.2 x hx
end

/-- C21. For every expression tree built from `PrefixExpression`, `InfixExpression` and
`CallExpression` nodes over `Identifier`, `IntegerLiteral` and `Boolean` leaves, in which
no leaf text and no operator string holds '(' or ')', the `String()` of the tree has as
many '(' as ')' and no prefix of it has more ')' than '('. -/
theorem C21_balanced_parentheses (e : Expression) (h : e.parenFree = true) :
    e.String.count 40 = e.String.count 41
    ∧ ∀ n, (e.String.take n).count 41 ≤ (e.String.take n).count 40 :=
  parenFree_balanced e h

theorem C21_balanced_parentheses_witness :
    (callNode (.Identifier (identNode "add"))
        [prefixNode MINUS "-" (.Identifier (identNode "a")),
         infixNode ASTERISK (intNode "2" 2) "*" (intNode "3" 3)]).parenFree = true
    ∧ (bytes "add((-a), (2 * 3))").count 40 = (bytes "add((-a), (2 * 3))").count 41
    ∧ ∀ n, ((bytes "add((-a), (2 * 3))").take n).count 41
        ≤ ((bytes "add((-a), (2 * 3))").take n).count 40 := by
  have hs : (callNode (.Identifier (identNode "add"))
        [prefixNode MINUS "-" (.Identifier (identNode "a")),
         infixNode ASTERISK (intNode "2" 2) "*" (intNode "3" 3)]).String
      = bytes "add((-a), (2 * 3))" := by decide
  have hb := C21_balanced_parentheses
    (callNode (.Identifier (identNode "add"))
        [prefixNode MINUS "-" (.Identifier (identNode "a")),
         infixNode ASTERISK (intNode "2" 2) "*" (intNode "3" 3)]) (by decide)
  rw [hs] at hb
  exact ⟨by decide, hb⟩

end Monkey
